import Mathlib

set_option maxRecDepth 100000

/-!
# Producer wire protocol and segment chunk model

A shallow embedding of `internal/producing/binary_messages.go` and
`internal/data/models.go`.

Conventions:
* a byte is a `Nat` below 256, a byte slice is a `List Nat`;
* fixed-width unsigned integers are `Nat` reduced `% 2^w` where Go truncates;
* `int32` is an `Int`, encoded in two's complement;
* a Go `string` is its sequence of bytes;
* functions that return `error` and mutate the sink return the sink afterwards
  together with the returned error, or a panic.
-/

namespace Polar

/-! ## Standard library: `encoding/binary` -/

/-- The two implementations of `binary.ByteOrder`; `conf.Endianness` is one of them. -/
inductive ByteOrder
  | LittleEndian
  | BigEndian
  deriving DecidableEq, Repr

/-- Little-endian bytes of `v`, `n` of them (higher bits are dropped). -/
def leBytes : Nat → Nat → List Nat
  | 0, _ => []
  | n + 1, v => (v % 256) :: leBytes n (v / 256)

/-- The value of a little-endian byte sequence. -/
def leValue : List Nat → Nat
  | [] => 0
  | b :: bs => b + 256 * leValue bs

/-- The `n` bytes that `order` uses for the unsigned value `v`. -/
def ByteOrder.bytes (order : ByteOrder) (n v : Nat) : List Nat :=
  match order with
  | .LittleEndian => leBytes n v
  | .BigEndian => (leBytes n v).reverse

/-- The unsigned value that `order` reads from the bytes `bs`. -/
def ByteOrder.value (order : ByteOrder) (bs : List Nat) : Nat :=
  match order with
  | .LittleEndian => leValue bs
  | .BigEndian => leValue bs.reverse

/-- The bytes stored by `order.PutUint16`. -/
def ByteOrder.Uint16Bytes (order : ByteOrder) (v : Nat) : List Nat := order.bytes 2 v

/-- The bytes stored by `order.PutUint32`. -/
def ByteOrder.Uint32Bytes (order : ByteOrder) (v : Nat) : List Nat := order.bytes 4 v

/-- The bytes stored by `order.PutUint64`. -/
def ByteOrder.Uint64Bytes (order : ByteOrder) (v : Nat) : List Nat := order.bytes 8 v

/-- A byte slice seen as a window `[off, off + len)` over a backing array: writes through
the window change the backing array, as with Go slices. -/
def overwrite (backing : List Nat) (off : Nat) (bs : List Nat) : List Nat :=
  backing.take off ++ bs ++ backing.drop (off + bs.length)

/-- In-place `order.PutUint32(b, v)` where `b` is the window of `backing` starting at `off`
with length `len`: fails (index out of range) when the window has fewer than 4 bytes. -/
def ByteOrder.PutUint32 (order : ByteOrder) (backing : List Nat) (off len v : Nat) :
    Option (List Nat) :=
  if len < 4 then none else some (overwrite backing off (order.Uint32Bytes v))

/-- `order.Uint16(b)`: reads the first 2 bytes of `b`. -/
def ByteOrder.Uint16 (order : ByteOrder) (b : List Nat) : Nat := order.value (b.take 2)

/-- `order.Uint32(b)`: reads the first 4 bytes of `b`. -/
def ByteOrder.Uint32 (order : ByteOrder) (b : List Nat) : Nat := order.value (b.take 4)

/-- `order.Uint64(b)`: reads the first 8 bytes of `b`. -/
def ByteOrder.Uint64 (order : ByteOrder) (b : List Nat) : Nat := order.value (b.take 8)

/-- A fixed-size field value as `encoding/binary` sees it. -/
inductive Field
  | u8 (v : Nat)
  | u16 (v : Nat)
  | u32 (v : Nat)
  | u64 (v : Nat)
  | i32 (v : Int)
  deriving DecidableEq, Repr

/-- The encoded size of a field (`binary.Size` of its type). -/
def Field.size : Field → Nat
  | .u8 _ => 1
  | .u16 _ => 2
  | .u32 _ => 4
  | .u64 _ => 8
  | .i32 _ => 4

/-- The bytes `encoding/binary` writes for one field. A signed value is converted to the
unsigned value of the same width first (two's complement). -/
def Field.encode (order : ByteOrder) : Field → List Nat
  | .u8 v => [v % 256]
  | .u16 v => order.Uint16Bytes v
  | .u32 v => order.Uint32Bytes v
  | .u64 v => order.Uint64Bytes v
  | .i32 v => order.Uint32Bytes (v % 4294967296).toNat

/-- The byte image `binary.Write` builds for a struct: its fields in declaration order. -/
def encodeFields (order : ByteOrder) (fields : List Field) : List Nat :=
  fields.flatMap (Field.encode order)

/-- The value of `binary.Size` for a struct with the given fields. -/
def sizeOfFields (fields : List Field) : Nat :=
  (fields.map Field.size).sum

/-! ## Standard library: `hash/crc32` -/

/-- The reversed IEEE polynomial, `crc32.IEEE`. -/
def IEEE : Nat := 0xedb88320

/-- One step of the table construction: a right shift, xor the polynomial when the low bit
was set. -/
def crcShift (poly crc : Nat) : Nat :=
  if crc % 2 = 1 then (crc >>> 1) ^^^ poly else crc >>> 1

/-- The entry `i` of the table built by `simpleMakeTable`: eight shift steps from `i`. -/
def tableEntry (poly i : Nat) : Nat :=
  crcShift poly (crcShift poly (crcShift poly (crcShift poly
    (crcShift poly (crcShift poly (crcShift poly (crcShift poly i)))))))

/-- The loop body of `simpleUpdate`: `crc = tab[byte(crc) ^ v] ^ (crc >> 8)`. -/
def crcStep (poly crc v : Nat) : Nat :=
  tableEntry poly ((crc % 256) ^^^ v) ^^^ (crc >>> 8)

/-- The function `simpleUpdate`: complement, fold every byte in, complement. -/
def crcUpdate (poly crc : Nat) (p : List Nat) : Nat :=
  (p.foldl (crcStep poly) (crc ^^^ 0xffffffff)) ^^^ 0xffffffff

/-- The function `crc32.ChecksumIEEE`. -/
def ChecksumIEEE (data : List Nat) : Nat := crcUpdate IEEE 0 data

end Polar


namespace Polar

/-! ## The sink -/

/-- An `error` value. -/
abbrev Error := String

/-- What a call of `Write(p)` on a sink does: `ok` appends all of `p` and returns a nil
error; `fail n e` appends the first `n` bytes of `p` and returns the error `e`. -/
inductive WriteResult
  | ok
  | fail (n : Nat) (e : Error)
  deriving DecidableEq, Repr

/-- Modelled from the spec: the interface `BufferBackedWriter` (package `types`) is not in
the sources at hand. It is "a sink that exposes both append bytes and read back the bytes
appended so far", "a growable buffer type exposing both append and a slice view over
already-written bytes". `buf` is the slice `Bytes()` returns, a view of the sink's own
storage; `respond buf p` is how the sink answers `Write(p)` when it holds `buf`; `writes`
counts the calls of `Write`. -/
structure BufferBackedWriter where
  buf : List Nat
  respond : List Nat → List Nat → WriteResult
  writes : Nat

/-- The method `Bytes()`. -/
def BufferBackedWriter.Bytes (w : BufferBackedWriter) : List Nat := w.buf

/-- The method `Write(p)`: the sink afterwards and the error returned (`none` is nil). -/
def BufferBackedWriter.Write (w : BufferBackedWriter) (p : List Nat) :
    BufferBackedWriter × Option Error :=
  match w.respond w.buf p with
  | .ok => ({ w with buf := w.buf ++ p, writes := w.writes + 1 }, none)
  | .fail n e => ({ w with buf := w.buf ++ p.take n, writes := w.writes + 1 }, some e)

/-- A sink that never fails (such as `bytes.Buffer`), holding `buf`. -/
def bufferOf (buf : List Nat) : BufferBackedWriter :=
  { buf := buf, respond := fun _ _ => .ok, writes := 0 }

/-- A sink holding `buf` that accepts `room` more bytes and then fails with a short write. -/
def boundedBufferOf (buf : List Nat) (room : Nat) : BufferBackedWriter :=
  { buf := buf
    respond := fun cur p =>
      if cur.length + p.length ≤ buf.length + room then .ok
      else .fail (buf.length + room - cur.length) "short write"
    writes := 0 }

/-- The outcome of a function that returns `error` and works on a sink: it returns, leaving
the sink `w` and the error `err` (`none` is nil), or it panics. -/
inductive Outcome
  | ret (w : BufferBackedWriter) (err : Option Error)
  | panic

/-- The function `binary.Write(w, order, data)` for a struct with the given fields: one
call of `w.Write` with the whole byte image, whose error is returned. -/
def binaryWrite (w : BufferBackedWriter) (order : ByteOrder) (fields : List Field) :
    BufferBackedWriter × Option Error :=
  w.Write (encodeFields order fields)

/-! ## `internal/producing/binary_messages.go` -/

/-- The constant `messageVersion`. -/
def messageVersion : Nat := 1

/-- The opcode `startupOp`. -/
def startupOp : Nat := 1
/-- The opcode `readyOp`. -/
def readyOp : Nat := 2
/-- The opcode `errorOp`. -/
def errorOp : Nat := 3
/-- The opcode `produceOp`. -/
def produceOp : Nat := 4
/-- The opcode `produceResponseOp`. -/
def produceResponseOp : Nat := 5

/-- The flag `withTimestamp`. -/
def withTimestamp : Nat := 0b00000001

/-- The struct `binaryHeader`: `Version uint8`, `Flags flags` (uint8), `StreamId streamId`
(uint16), `Op opcode` (uint8), `BodyLength uint32`, `Crc uint32`. -/
structure binaryHeader where
  Version : Nat
  Flags : Nat
  StreamId : Nat
  Op : Nat
  BodyLength : Nat
  Crc : Nat
  deriving DecidableEq, Repr

/-- Every field of the header is in the range of its Go type. -/
def binaryHeader.inRange (h : binaryHeader) : Prop :=
  h.Version < 256 ∧ h.Flags < 256 ∧ h.StreamId < 65536 ∧ h.Op < 256 ∧
    h.BodyLength < 4294967296 ∧ h.Crc < 4294967296

instance (h : binaryHeader) : Decidable h.inRange := by
  unfold binaryHeader.inRange; infer_instance

/-- The fields of `binaryHeader` in declaration order, as `encoding/binary` walks them. -/
def binaryHeader.fields (h : binaryHeader) : List Field :=
  [.u8 h.Version, .u8 h.Flags, .u16 h.StreamId, .u8 h.Op, .u32 h.BodyLength, .u32 h.Crc]

/-- Modelled from the spec: `utils.BinarySize` is not in the sources at hand; it is the
size `encoding/binary` gives the value, "13 bytes total" for the wire header. -/
def BinarySize (fields : List Field) : Nat := sizeOfFields fields

/-- The variable `binaryHeaderSize = utils.BinarySize(binaryHeader{})`. -/
def binaryHeaderSize : Nat := BinarySize (binaryHeader.fields ⟨0, 0, 0, 0, 0, 0⟩)

/-- The constant `crcByteSize` of `writeHeader`. -/
def crcByteSize : Nat := 4

/-- The function `writeHeader`, with `conf.Endianness = order`.

`headerBuf` is the window of `buf` at offset `len(buf)-binaryHeaderSize`; the two slice
expressions and `PutUint32` panic when out of range. The patch goes through the window
into the sink's storage. -/
def writeHeader (order : ByteOrder) (w : BufferBackedWriter) (header : binaryHeader) :
    Outcome :=
  match binaryWrite w order header.fields with
  | (w1, some err) => .ret w1 (some err)
  | (w1, none) =>
    let buf := w1.Bytes
    if buf.length < binaryHeaderSize then .panic else
    let off := buf.length - binaryHeaderSize
    let headerBuf := buf.drop off
    if headerBuf.length < crcByteSize then .panic else
    let crc := ChecksumIEEE (headerBuf.take (headerBuf.length - crcByteSize))
    match order.PutUint32 buf (off + (headerBuf.length - crcByteSize)) crcByteSize crc with
    | none => .panic
    | some buf2 => .ret { w1 with buf := buf2 } none

/-- The struct `emptyResponse`. -/
structure emptyResponse where
  streamId : Nat
  op : Nat
  deriving DecidableEq, Repr

/-- The method `emptyResponse.Marshal`. -/
def emptyResponse.Marshal (order : ByteOrder) (r : emptyResponse) (w : BufferBackedWriter) :
    Outcome :=
  writeHeader order w
    { Version := messageVersion, StreamId := r.streamId, Op := r.op, Flags := 0,
      BodyLength := 0, Crc := 0 }

/-- The struct `errorResponse`; `message` is the string as its bytes. -/
structure errorResponse where
  streamId : Nat
  op : Nat
  message : List Nat
  deriving DecidableEq, Repr

/-- The method `errorResponse.Marshal`. `uint32(len(message))` truncates to 32 bits; the
fields `Flags` and `Crc` are left at their zero value. -/
def errorResponse.Marshal (order : ByteOrder) (r : errorResponse) (w : BufferBackedWriter) :
    Outcome :=
  let message := r.message
  match writeHeader order w
      { Version := messageVersion, Flags := 0, StreamId := r.streamId, Op := errorOp,
        BodyLength := message.length % 4294967296, Crc := 0 } with
  | .panic => .panic
  | .ret w1 (some err) => .ret w1 (some err)
  | .ret w1 none =>
    let (w2, err) := w1.Write message
    .ret w2 err

/-- The interface `binaryResponse`, with the two implementations of this file. -/
inductive binaryResponse
  | empty (r : emptyResponse)
  | error (r : errorResponse)
  deriving DecidableEq, Repr

/-- The method `Marshal` of the interface, dispatched on the implementation. -/
def binaryResponse.Marshal (order : ByteOrder) (r : binaryResponse) (w : BufferBackedWriter) :
    Outcome :=
  match r with
  | .empty r => r.Marshal order w
  | .error r => r.Marshal order w

/-- The function `newErrorResponse`: `op` is left at its zero value. -/
def newErrorResponse (message : List Nat) (requestHeader : binaryHeader) : binaryResponse :=
  .error { message := message, streamId := requestHeader.StreamId, op := 0 }

/-- The UTF-8 bytes of one code point. -/
def utf8Bytes (c : Nat) : List Nat :=
  if c < 0x80 then [c]
  else if c < 0x800 then [0xc0 + c / 64, 0x80 + c % 64]
  else if c < 0x10000 then [0xe0 + c / 4096, 0x80 + c / 64 % 64, 0x80 + c % 64]
  else [0xf0 + c / 262144, 0x80 + c / 4096 % 64, 0x80 + c / 64 % 64, 0x80 + c % 64]

/-- The bytes of a string literal, `[]byte(s)`: its UTF-8 encoding. -/
def bytesOf (s : String) : List Nat := s.data.flatMap (fun c => utf8Bytes c.toNat)

end Polar

namespace Polar

/-! ## Reading a wire header back -/

/-- The 13 bytes a header occupies on the wire once `writeHeader` has patched the checksum:
the byte image of the first five fields followed by the checksum of those bytes. -/
def wireHeader (order : ByteOrder) (h : binaryHeader) : List Nat :=
  let image := encodeFields order h.fields
  image.take (binaryHeaderSize - crcByteSize) ++
    order.Uint32Bytes (ChecksumIEEE (image.take (binaryHeaderSize - crcByteSize)))

/-- The five fields before the checksum, as they are laid out on the wire. -/
def headerPrefix (order : ByteOrder) (h : binaryHeader) : List Nat :=
  [h.Version % 256, h.Flags % 256] ++ order.Uint16Bytes h.StreamId ++ [h.Op % 256] ++
    order.Uint32Bytes h.BodyLength

/-- The frame of a response: the bytes `Marshal` leaves in a fresh sink that never fails. -/
def frame (order : ByteOrder) (r : binaryResponse) : List Nat :=
  match r.Marshal order (bufferOf []) with
  | .ret w _ => w.buf
  | .panic => []

/-- Modelled from the spec: the function that reads a wire header is not in the sources at
hand. It reads the layout `version:u8 | flags:u8 | streamId:u16 | opcode:u8 |
bodyLength:u32 | crc:u32` from the first 13 bytes of `b`, each field at its fixed offset
(0, 1, 2, 4, 5, 9) in the configured byte order. There is no header when `b` is shorter. -/
def decodeHeader (order : ByteOrder) (b : List Nat) : Option binaryHeader :=
  if b.length < binaryHeaderSize then none
  else some
    { Version := b.getD 0 0
      Flags := b.getD 1 0
      StreamId := order.Uint16 (b.drop 2)
      Op := b.getD 4 0
      BodyLength := order.Uint32 (b.drop 5)
      Crc := order.Uint32 (b.drop 9) }

/-! ## `internal/data/models.go` -/

/-- The variable `emptyBuffer = make([]byte, 0)`. -/
def emptyBuffer : List Nat := []

/-- The struct `chunkHeader`: `Flags byte`, `BodyLength uint32`, `Start uint64`,
`RecordLength uint32`, `Crc int32`. -/
structure chunkHeader where
  Flags : Nat
  BodyLength : Nat
  Start : Nat
  RecordLength : Nat
  Crc : Int
  deriving DecidableEq, Repr

/-- Every field of the chunk header is in the range of its Go type. -/
def chunkHeader.inRange (h : chunkHeader) : Prop :=
  h.Flags < 256 ∧ h.BodyLength < 4294967296 ∧ h.Start < 18446744073709551616 ∧
    h.RecordLength < 4294967296 ∧ -2147483648 ≤ h.Crc ∧ h.Crc < 2147483648

instance (h : chunkHeader) : Decidable h.inRange := by
  unfold chunkHeader.inRange; infer_instance

/-- The fields of `chunkHeader` in declaration order, as `encoding/binary` walks them. -/
def chunkHeader.fields (h : chunkHeader) : List Field :=
  [.u8 h.Flags, .u32 h.BodyLength, .u64 h.Start, .u32 h.RecordLength, .i32 h.Crc]

/-- The variable `chunkHeaderSize = utils.BinarySize(chunkHeader{})`. -/
def chunkHeaderSize : Nat := BinarySize (chunkHeader.fields ⟨0, 0, 0, 0, 0⟩)

/-- Modelled from the spec: the function that writes a chunk header is not in the sources
at hand. "Encoding a header writes the five fields in the fixed order above using a single
configured byte order": `flags:u8 | bodyLength:u32 | start:u64 | recordLength:u32 |
crc:i32`. -/
def encodeChunkHeader (order : ByteOrder) (h : chunkHeader) : List Nat :=
  encodeFields order h.fields

/-- The signed 32-bit value with the same bits as the unsigned `v`. -/
def toInt32 (v : Nat) : Int :=
  if v % 4294967296 < 2147483648 then (v % 4294967296 : Nat) else (v % 4294967296 : Nat) - 4294967296

/-- Modelled from the spec: the function that reads a chunk header is not in the sources at
hand. "Decoding reverses the process": the five fields are read at the offsets of the
layout `flags:u8 | bodyLength:u32 | start:u64 | recordLength:u32 | crc:i32`, in the same
byte order. There is no header when `b` is shorter than the layout. -/
def decodeChunkHeader (order : ByteOrder) (b : List Nat) : Option chunkHeader :=
  if b.length < chunkHeaderSize then none
  else some
    { Flags := b.getD 0 0
      BodyLength := order.Uint32 (b.drop 1)
      Start := order.Uint64 (b.drop 5)
      RecordLength := order.Uint32 (b.drop 13)
      Crc := toInt32 (order.Uint32 (b.drop 17)) }

/-- The struct `ReadSegmentChunk`. -/
structure ReadSegmentChunk where
  buffer : List Nat
  start : Nat
  length : Nat
  deriving DecidableEq, Repr

/-- The function `NewEmptyChunk`. -/
def NewEmptyChunk (start : Nat) : ReadSegmentChunk :=
  { buffer := emptyBuffer, start := start, length := 0 }

/-- The method `DataBlock`. -/
def ReadSegmentChunk.DataBlock (s : ReadSegmentChunk) : List Nat := s.buffer

/-- The method `StartOffset`. -/
def ReadSegmentChunk.StartOffset (s : ReadSegmentChunk) : Nat := s.start

/-- The method `RecordLength`. -/
def ReadSegmentChunk.RecordLength (s : ReadSegmentChunk) : Nat := s.length

end Polar

namespace Polar

/-! ## Facts about the byte orders -/

theorem leBytes_length (n v : Nat) : (leBytes n v).length = n := by
  induction n generalizing v with
  | zero => rfl
  | succ n ih => simp [leBytes, ih]

theorem leValue_leBytes (n v : Nat) : leValue (leBytes n v) = v % 256 ^ n := by
  induction n generalizing v with
  | zero => simp [leBytes, leValue, Nat.mod_one]
  | succ n ih =>
    simp only [leBytes, leValue, ih]
    rw [pow_succ, Nat.mul_comm (256 ^ n) 256, Nat.mod_mul]

theorem leBytes_lt (n v : Nat) : ∀ b ∈ leBytes n v, b < 256 := by
  induction n generalizing v with
  | zero => simp [leBytes]
  | succ n ih =>
    intro b hb
    simp only [leBytes, List.mem_cons] at hb
    rcases hb with rfl | hb
    · exact Nat.mod_lt _ (by decide)
    · exact ih _ b hb

theorem bytes_length (order : ByteOrder) (n v : Nat) : (order.bytes n v).length = n := by
  cases order <;> simp [ByteOrder.bytes, leBytes_length]

theorem value_bytes (order : ByteOrder) (n v : Nat) :
    order.value (order.bytes n v) = v % 256 ^ n := by
  cases order <;> simp [ByteOrder.bytes, ByteOrder.value, leValue_leBytes]

theorem bytes_lt (order : ByteOrder) (n v : Nat) : ∀ b ∈ order.bytes n v, b < 256 := by
  cases order
  · exact leBytes_lt n v
  · intro b hb
    exact leBytes_lt n v b (by simpa [ByteOrder.bytes] using hb)

theorem Uint16Bytes_length (order : ByteOrder) (v : Nat) :
    (order.Uint16Bytes v).length = 2 := bytes_length order 2 v

theorem Uint32Bytes_length (order : ByteOrder) (v : Nat) :
    (order.Uint32Bytes v).length = 4 := bytes_length order 4 v

theorem Uint64Bytes_length (order : ByteOrder) (v : Nat) :
    (order.Uint64Bytes v).length = 8 := bytes_length order 8 v

/-- Reading 2 bytes back where they were put gives the value, whatever follows. -/
theorem Uint16_Uint16Bytes (order : ByteOrder) (v : Nat) (rest : List Nat) (hv : v < 65536) :
    order.Uint16 (order.Uint16Bytes v ++ rest) = v := by
  have hl := Uint16Bytes_length order v
  rw [ByteOrder.Uint16, List.take_left' hl, ByteOrder.Uint16Bytes, value_bytes]
  exact Nat.mod_eq_of_lt (by norm_num; exact hv)

/-- Reading 4 bytes back where they were put gives the value, whatever follows. -/
theorem Uint32_Uint32Bytes (order : ByteOrder) (v : Nat) (rest : List Nat)
    (hv : v < 4294967296) : order.Uint32 (order.Uint32Bytes v ++ rest) = v := by
  have hl := Uint32Bytes_length order v
  rw [ByteOrder.Uint32, List.take_left' hl, ByteOrder.Uint32Bytes, value_bytes]
  exact Nat.mod_eq_of_lt (by norm_num; exact hv)

/-- Reading 8 bytes back where they were put gives the value, whatever follows. -/
theorem Uint64_Uint64Bytes (order : ByteOrder) (v : Nat) (rest : List Nat)
    (hv : v < 18446744073709551616) : order.Uint64 (order.Uint64Bytes v ++ rest) = v := by
  have hl := Uint64Bytes_length order v
  rw [ByteOrder.Uint64, List.take_left' hl, ByteOrder.Uint64Bytes, value_bytes]
  exact Nat.mod_eq_of_lt (by norm_num; exact hv)

/-! ## Facts about the checksum -/

theorem crcShift_lt (crc : Nat) (h : crc < 2 ^ 32) : crcShift IEEE crc < 2 ^ 32 := by
  have hs : crc >>> 1 < 2 ^ 32 := by
    rw [Nat.shiftRight_eq_div_pow]
    exact lt_of_le_of_lt (Nat.div_le_self _ _) h
  unfold crcShift
  split
  · exact Nat.xor_lt_two_pow hs (by decide)
  · exact hs

theorem tableEntry_lt (i : Nat) (h : i < 2 ^ 32) : tableEntry IEEE i < 2 ^ 32 := by
  unfold tableEntry
  repeat apply crcShift_lt
  exact h

theorem crcStep_lt (crc v : Nat) (hc : crc < 2 ^ 32) (hv : v < 256) :
    crcStep IEEE crc v < 2 ^ 32 := by
  unfold crcStep
  apply Nat.xor_lt_two_pow
  · apply tableEntry_lt
    apply Nat.xor_lt_two_pow
    · exact lt_of_lt_of_le (Nat.mod_lt _ (by decide)) (by decide)
    · exact lt_of_lt_of_le hv (by decide)
  · rw [Nat.shiftRight_eq_div_pow]
    exact lt_of_le_of_lt (Nat.div_le_self _ _) hc

theorem foldl_crcStep_lt (data : List Nat) (crc : Nat) (hc : crc < 2 ^ 32)
    (hd : ∀ b ∈ data, b < 256) : data.foldl (crcStep IEEE) crc < 2 ^ 32 := by
  induction data generalizing crc with
  | nil => simpa using hc
  | cons b bs ih =>
    simp only [List.foldl_cons]
    apply ih
    · exact crcStep_lt crc b hc (hd b (by simp))
    · intro x hx
      exact hd x (by simp [hx])

/-- The checksum of a sequence of bytes fits 32 bits. -/
theorem ChecksumIEEE_lt (data : List Nat) (hd : ∀ b ∈ data, b < 256) :
    ChecksumIEEE data < 4294967296 := by
  have h := foldl_crcStep_lt data (0 ^^^ 0xffffffff) (by decide) hd
  have := Nat.xor_lt_two_pow h (show 0xffffffff < 2 ^ 32 by decide)
  simpa [ChecksumIEEE, crcUpdate] using this

end Polar

namespace Polar

/-! ## Facts about `writeHeader` -/

/-- The byte image `binary.Write` builds for a header, field by field. -/
theorem encodeFields_header (order : ByteOrder) (h : binaryHeader) :
    encodeFields order h.fields =
      [h.Version % 256, h.Flags % 256] ++ order.Uint16Bytes h.StreamId ++ [h.Op % 256] ++
        order.Uint32Bytes h.BodyLength ++ order.Uint32Bytes h.Crc := by
  simp [encodeFields, binaryHeader.fields, Field.encode]

theorem headerPrefix_length (order : ByteOrder) (h : binaryHeader) :
    (headerPrefix order h).length = 9 := by
  simp [headerPrefix, Uint16Bytes_length, Uint32Bytes_length]

theorem headerPrefix_lt (order : ByteOrder) (h : binaryHeader) :
    ∀ b ∈ headerPrefix order h, b < 256 := by
  intro b hb
  simp only [headerPrefix, List.mem_append, List.mem_cons, List.mem_singleton,
    List.not_mem_nil, or_false] at hb
  rcases hb with (((rfl | rfl) | hb) | rfl) | hb
  · exact Nat.mod_lt _ (by decide)
  · exact Nat.mod_lt _ (by decide)
  · exact bytes_lt order 2 _ b hb
  · exact Nat.mod_lt _ (by decide)
  · exact bytes_lt order 4 _ b hb

theorem encodeFields_header_split (order : ByteOrder) (h : binaryHeader) :
    encodeFields order h.fields = headerPrefix order h ++ order.Uint32Bytes h.Crc := by
  rw [encodeFields_header, headerPrefix]

theorem encodeFields_header_length (order : ByteOrder) (h : binaryHeader) :
    (encodeFields order h.fields).length = 13 := by
  simp [encodeFields_header_split, headerPrefix_length, Uint32Bytes_length]

theorem binaryHeaderSize_eq : binaryHeaderSize = 13 := by decide

theorem wireHeader_eq (order : ByteOrder) (h : binaryHeader) :
    wireHeader order h =
      headerPrefix order h ++ order.Uint32Bytes (ChecksumIEEE (headerPrefix order h)) := by
  have hl := headerPrefix_length order h
  simp only [wireHeader, binaryHeaderSize_eq, crcByteSize, encodeFields_header_split]
  rw [show 13 - 4 = 9 from rfl, List.take_left' hl]

theorem wireHeader_length (order : ByteOrder) (h : binaryHeader) :
    (wireHeader order h).length = 13 := by
  simp [wireHeader_eq, headerPrefix_length, Uint32Bytes_length]

/-- What `writeHeader` does, by the answer of the sink to the one `Write` call: on `ok` the
sink gains the 13 bytes of `wireHeader` and nil is returned; on a failure the sink keeps
what the failed `Write` left and its error is returned. It never panics. -/
theorem writeHeader_eq (order : ByteOrder) (w : BufferBackedWriter) (h : binaryHeader) :
    writeHeader order w h =
      match w.respond w.buf (encodeFields order h.fields) with
      | .ok => .ret { w with buf := w.buf ++ wireHeader order h, writes := w.writes + 1 } none
      | .fail n e =>
        .ret { w with buf := w.buf ++ (encodeFields order h.fields).take n,
                      writes := w.writes + 1 } (some e) := by
  have hl := headerPrefix_length order h
  have hc := Uint32Bytes_length order h.Crc
  have hk := Uint32Bytes_length order (ChecksumIEEE (headerPrefix order h))
  unfold writeHeader binaryWrite BufferBackedWriter.Write
  cases hr : w.respond w.buf (encodeFields order h.fields) with
  | fail n e => simp
  | ok =>
    simp only [BufferBackedWriter.Bytes, binaryHeaderSize_eq, crcByteSize,
      encodeFields_header_split, List.length_append, hl, hc, ByteOrder.PutUint32, overwrite,
      wireHeader_eq]
    have e1 : w.buf.length + (9 + 4) - 13 = w.buf.length := by omega
    have e2 : ¬ (w.buf.length + (9 + 4) < 13) := by omega
    simp only [e1, e2, if_false, List.drop_left, List.length_append, hl, hc]
    simp only [show ¬ (9 + 4 < 4) by omega, show 9 + 4 - 4 = 9 by rfl, if_false,
      List.take_left' hl, lt_irrefl, hk]
    congr 2
    rw [← List.append_assoc w.buf, List.take_left' (by simp [hl]),
      List.drop_of_length_le (by simp [hl, hc])]
    simp

/-- A successful `writeHeader` leaves the sink with the 13 wire bytes appended; the sink
had accepted the one `Write`. -/
theorem writeHeader_ok (order : ByteOrder) (w w' : BufferBackedWriter) (h : binaryHeader)
    (hok : writeHeader order w h = .ret w' none) :
    w' = { w with buf := w.buf ++ wireHeader order h, writes := w.writes + 1 } ∧
      w.respond w.buf (encodeFields order h.fields) = .ok := by
  rw [writeHeader_eq] at hok
  cases hr : w.respond w.buf (encodeFields order h.fields) with
  | fail n e => simp [hr] at hok
  | ok =>
    simp only [hr, Outcome.ret.injEq, and_true] at hok
    exact ⟨hok.symm, rfl⟩

theorem length_eq_four {l : List Nat} (h : l.length = 4) : ∃ a b c d, l = [a, b, c, d] := by
  match l, h with
  | [a, b, c, d], _ => exact ⟨a, b, c, d, rfl⟩

end Polar

namespace Polar

/-! ## The wire header -/

/-- C1: after a successful `writeHeader` the sink holds at least 13 bytes, its last 4 bytes
are the CRC-32 (IEEE) of the 9 bytes immediately before them, stored as an unsigned 32-bit
integer in the configured byte order (the checksum fits 32 bits, so reading the 4 bytes back
gives it), and those 9 bytes are the version, flags, stream id, opcode and body length just
written, the two multi-byte fields in the same byte order. -/
theorem writeHeader_crc_trailer (order : ByteOrder) (w w' : BufferBackedWriter)
    (header : binaryHeader) (hok : writeHeader order w header = .ret w' none) :
    13 ≤ w'.buf.length ∧
    w'.buf.drop (w'.buf.length - 4) =
      order.Uint32Bytes (ChecksumIEEE ((w'.buf.drop (w'.buf.length - 13)).take 9)) ∧
    order.Uint32 (w'.buf.drop (w'.buf.length - 4)) =
      ChecksumIEEE ((w'.buf.drop (w'.buf.length - 13)).take 9) ∧
    (w'.buf.drop (w'.buf.length - 13)).take 9 =
      [header.Version % 256, header.Flags % 256] ++ order.Uint16Bytes header.StreamId ++
        [header.Op % 256] ++ order.Uint32Bytes header.BodyLength := by
  obtain ⟨rfl, -⟩ := writeHeader_ok order w w' header hok
  have hl := headerPrefix_length order header
  have hk := Uint32Bytes_length order (ChecksumIEEE (headerPrefix order header))
  have hlen : (w.buf ++ wireHeader order header).length = w.buf.length + 13 := by
    simp [wireHeader_length]
  have h13 : (w.buf ++ wireHeader order header).drop (w.buf.length + 13 - 13) =
      wireHeader order header := by
    rw [Nat.add_sub_cancel, List.drop_left]
  have h9 : (wireHeader order header).take 9 = headerPrefix order header := by
    rw [wireHeader_eq, List.take_left' hl]
  have h4 : (w.buf ++ wireHeader order header).drop (w.buf.length + 13 - 4) =
      order.Uint32Bytes (ChecksumIEEE (headerPrefix order header)) := by
    rw [wireHeader_eq, ← List.append_assoc,
      show w.buf.length + 13 - 4 = (w.buf ++ headerPrefix order header).length by
        simp [hl], List.drop_left]
  simp only [hlen, h13, h9, h4]
  refine ⟨by omega, trivial, ?_, rfl⟩
  have := Uint32_Uint32Bytes order (ChecksumIEEE (headerPrefix order header)) []
    (ChecksumIEEE_lt _ (headerPrefix_lt order header))
  simpa using this

/-- C1 at a big-endian header written after two bytes already in the sink. -/
theorem writeHeader_crc_trailer_witness :
    writeHeader .BigEndian (bufferOf [9, 9]) ⟨1, 0, 7, 2, 0, 0⟩ =
        .ret ⟨[9, 9, 1, 0, 0, 7, 2, 0, 0, 0, 0, 150, 183, 99, 53], fun _ _ => .ok, 1⟩ none ∧
      [150, 183, 99, 53] = ByteOrder.BigEndian.Uint32Bytes (ChecksumIEEE [1, 0, 0, 7, 2, 0, 0, 0, 0]) :=
  ⟨rfl, (writeHeader_crc_trailer .BigEndian (bufferOf [9, 9])
    ⟨[9, 9, 1, 0, 0, 7, 2, 0, 0, 0, 0, 150, 183, 99, 53], fun _ _ => .ok, 1⟩
    ⟨1, 0, 7, 2, 0, 0⟩ rfl).2.1⟩

/-- C2: `binaryHeaderSize` is 13 and a successful `writeHeader` of a header appends exactly
13 bytes to the sink, laid out as version at byte 0, flags at byte 1, stream id in bytes
2-3, opcode at byte 4, body length in bytes 5-8 and the checksum of bytes 0-8 in bytes 9-12,
with stream id, body length and checksum in the configured byte order. -/
theorem writeHeader_layout (order : ByteOrder) (w w' : BufferBackedWriter)
    (header : binaryHeader) (hr : header.inRange)
    (hok : writeHeader order w header = .ret w' none) :
    binaryHeaderSize = 13 ∧
    w'.buf.length = w.buf.length + 13 ∧
    w'.buf.take w.buf.length = w.buf ∧
    (w'.buf.drop w.buf.length).take 1 = [header.Version] ∧
    ((w'.buf.drop w.buf.length).drop 1).take 1 = [header.Flags] ∧
    ((w'.buf.drop w.buf.length).drop 2).take 2 = order.Uint16Bytes header.StreamId ∧
    ((w'.buf.drop w.buf.length).drop 4).take 1 = [header.Op] ∧
    ((w'.buf.drop w.buf.length).drop 5).take 4 = order.Uint32Bytes header.BodyLength ∧
    (w'.buf.drop w.buf.length).drop 9 =
      order.Uint32Bytes (ChecksumIEEE ((w'.buf.drop w.buf.length).take 9)) := by
  obtain ⟨rfl, -⟩ := writeHeader_ok order w w' header hok
  obtain ⟨hv, hf, -, ho, -, -⟩ := hr
  have hl := headerPrefix_length order header
  have h9 : (wireHeader order header).take 9 = headerPrefix order header := by
    rw [wireHeader_eq, List.take_left' hl]
  refine ⟨binaryHeaderSize_eq, by simp [wireHeader_length], by simp, ?_⟩
  simp only [List.drop_left, h9]
  rw [wireHeader_eq]
  obtain ⟨s0, s1, hs⟩ := List.length_eq_two.mp (Uint16Bytes_length order header.StreamId)
  obtain ⟨l0, l1, l2, l3, hb⟩ := length_eq_four (Uint32Bytes_length order header.BodyLength)
  simp [headerPrefix, hs, hb, Nat.mod_eq_of_lt hv, Nat.mod_eq_of_lt hf, Nat.mod_eq_of_lt ho]

/-- C2 at a little-endian header written into an empty sink. -/
theorem writeHeader_layout_witness :
    (⟨1, 1, 258, 4, 65536, 0⟩ : binaryHeader).inRange ∧
      writeHeader .LittleEndian (bufferOf []) ⟨1, 1, 258, 4, 65536, 0⟩ =
        .ret ⟨[1, 1, 2, 1, 4, 0, 0, 1, 0, 126, 85, 128, 141], fun _ _ => .ok, 1⟩ none ∧
      ([1, 1, 2, 1, 4, 0, 0, 1, 0, 126, 85, 128, 141].drop 2).take 2 =
        ByteOrder.LittleEndian.Uint16Bytes 258 :=
  ⟨by decide, rfl, (writeHeader_layout .LittleEndian (bufferOf [])
    ⟨[1, 1, 2, 1, 4, 0, 0, 1, 0, 126, 85, 128, 141], fun _ _ => .ok, 1⟩
    ⟨1, 1, 258, 4, 65536, 0⟩ (by decide) rfl).2.2.2.2.2.1⟩

end Polar

namespace Polar

/-- Reading back the 13 wire bytes of a header in range gives its first five fields, and the
checksum of the first 9 bytes as the sixth. -/
theorem decodeHeader_wireHeader (order : ByteOrder) (h : binaryHeader) (hr : h.inRange)
    (rest : List Nat) :
    decodeHeader order (wireHeader order h ++ rest) =
      some { h with Crc := ChecksumIEEE (headerPrefix order h) } := by
  obtain ⟨hv, hf, hs, ho, hb, -⟩ := hr
  have hc := ChecksumIEEE_lt _ (headerPrefix_lt order h)
  have hlen : ¬ ((wireHeader order h ++ rest).length < binaryHeaderSize) := by
    simp [wireHeader_length, binaryHeaderSize_eq]
  have v16 := value_bytes order 2 h.StreamId
  have v32 := value_bytes order 4 h.BodyLength
  have vcrc := value_bytes order 4 (ChecksumIEEE (headerPrefix order h))
  rw [Nat.mod_eq_of_lt (by norm_num; exact hs)] at v16
  rw [Nat.mod_eq_of_lt (by norm_num; exact hb)] at v32
  rw [Nat.mod_eq_of_lt (by norm_num; exact hc)] at vcrc
  rw [decodeHeader, if_neg hlen, wireHeader_eq]
  generalize ChecksumIEEE (headerPrefix order h) = crc at vcrc ⊢
  obtain ⟨s0, s1, e16⟩ := List.length_eq_two.mp (Uint16Bytes_length order h.StreamId)
  obtain ⟨l0, l1, l2, l3, e32⟩ := length_eq_four (Uint32Bytes_length order h.BodyLength)
  obtain ⟨c0, c1, c2, c3, ecrc⟩ := length_eq_four (Uint32Bytes_length order crc)
  simp only [ByteOrder.Uint16Bytes, ByteOrder.Uint32Bytes] at e16 e32 ecrc
  rw [e16] at v16
  rw [e32] at v32
  rw [ecrc] at vcrc
  simp [headerPrefix, ByteOrder.Uint16Bytes, ByteOrder.Uint32Bytes, e16, e32, ecrc,
    ByteOrder.Uint16, ByteOrder.Uint32, v16, v32, vcrc, Nat.mod_eq_of_lt hv,
    Nat.mod_eq_of_lt hf, Nat.mod_eq_of_lt ho]

/-- C3: for either byte order and headers `W`, `V` in range, decoding the 13 bytes a
successful `writeHeader` appended for `W` gives back the version, flags, stream id, opcode
and body length of `W`, with the checksum of the first 9 of those bytes as the decoded crc;
and when `W` and `V` differ in one of the five fields, the 13 bytes appended for them
differ. -/
theorem writeHeader_decode (order : ByteOrder) (w w' v v' : BufferBackedWriter)
    (W V : binaryHeader) (hW : W.inRange) (hV : V.inRange)
    (hw : writeHeader order w W = .ret w' none)
    (hv : writeHeader order v V = .ret v' none) :
    (w'.buf.drop w.buf.length).length = 13 ∧
    decodeHeader order (w'.buf.drop w.buf.length) =
      some { Version := W.Version, Flags := W.Flags, StreamId := W.StreamId, Op := W.Op,
             BodyLength := W.BodyLength,
             Crc := ChecksumIEEE ((w'.buf.drop w.buf.length).take 9) } ∧
    ((W.Version ≠ V.Version ∨ W.Flags ≠ V.Flags ∨ W.StreamId ≠ V.StreamId ∨ W.Op ≠ V.Op ∨
        W.BodyLength ≠ V.BodyLength) →
      w'.buf.drop w.buf.length ≠ v'.buf.drop v.buf.length) := by
  obtain ⟨rfl, -⟩ := writeHeader_ok order w w' W hw
  obtain ⟨rfl, -⟩ := writeHeader_ok order v v' V hv
  have h9 : (wireHeader order W).take 9 = headerPrefix order W := by
    rw [wireHeader_eq, List.take_left' (headerPrefix_length order W)]
  have dW := decodeHeader_wireHeader order W hW []
  have dV := decodeHeader_wireHeader order V hV []
  simp only [List.append_nil] at dW dV
  simp only [List.drop_left, h9]
  refine ⟨wireHeader_length order W, dW, ?_⟩
  intro hne heq
  rw [heq, dV] at dW
  simp only [Option.some.injEq, binaryHeader.mk.injEq] at dW
  obtain ⟨e1, e2, e3, e4, e5, -⟩ := dW
  rcases hne with h | h | h | h | h
  · exact h e1.symm
  · exact h e2.symm
  · exact h e3.symm
  · exact h e4.symm
  · exact h e5.symm

/-- C3 at two big-endian headers that differ in the stream id only. -/
theorem writeHeader_decode_witness :
    decodeHeader .BigEndian [1, 0, 0, 7, 2, 0, 0, 0, 0, 150, 183, 99, 53] =
        some ⟨1, 0, 7, 2, 0, ChecksumIEEE [1, 0, 0, 7, 2, 0, 0, 0, 0]⟩ ∧
      [1, 0, 0, 7, 2, 0, 0, 0, 0, 150, 183, 99, 53] ≠
        [1, 0, 0, 8, 2, 0, 0, 0, 0, 103, 225, 209, 224] :=
  have h := writeHeader_decode .BigEndian (bufferOf []) ⟨[1, 0, 0, 7, 2, 0, 0, 0, 0, 150, 183, 99, 53], fun _ _ => .ok, 1⟩
    (bufferOf [5]) ⟨[5, 1, 0, 0, 8, 2, 0, 0, 0, 0, 103, 225, 209, 224], fun _ _ => .ok, 1⟩
    ⟨1, 0, 7, 2, 0, 0⟩ ⟨1, 0, 8, 2, 0, 99⟩ (by decide) (by decide) rfl rfl
  ⟨h.2.1, h.2.2 (by decide)⟩

/-- C4: for every stream id and opcode, a successful `Marshal` of an `emptyResponse` appends
exactly 13 bytes to the sink and nothing else, and those 13 bytes decode to a header with
version 1, flags 0, the stream id and the opcode of the response, and body length 0. -/
theorem emptyResponse_marshal (order : ByteOrder) (w w' : BufferBackedWriter)
    (S op : Nat) (hS : S < 65536) (hop : op < 256)
    (hok : emptyResponse.Marshal order { streamId := S, op := op } w = .ret w' none) :
    w'.buf.length = w.buf.length + 13 ∧
    w'.buf.take w.buf.length = w.buf ∧
    decodeHeader order (w'.buf.drop w.buf.length) =
      some { Version := 1, Flags := 0, StreamId := S, Op := op, BodyLength := 0,
             Crc := ChecksumIEEE ((w'.buf.drop w.buf.length).take 9) } := by
  simp only [emptyResponse.Marshal] at hok
  obtain ⟨rfl, -⟩ := writeHeader_ok order w w' _ hok
  have hr : (⟨messageVersion, 0, S, op, 0, 0⟩ : binaryHeader).inRange := by
    simp only [binaryHeader.inRange, messageVersion]
    omega
  have d := decodeHeader_wireHeader order _ hr []
  simp only [List.append_nil] at d
  have h9 := wireHeader_eq order ⟨messageVersion, 0, S, op, 0, 0⟩
  refine ⟨by simp [wireHeader_length], by simp, ?_⟩
  simp only [List.drop_left]
  rw [d]
  congr 2
  rw [h9, List.take_left' (headerPrefix_length order _)]

/-- C4 at the ready response for stream 513, little-endian, after one byte in the sink. -/
theorem emptyResponse_marshal_witness :
    emptyResponse.Marshal .LittleEndian ⟨513, readyOp⟩ (bufferOf [255]) =
        .ret ⟨[255, 1, 0, 1, 2, 2, 0, 0, 0, 0, 50, 249, 13, 96], fun _ _ => .ok, 1⟩ none ∧
      ([255, 1, 0, 1, 2, 2, 0, 0, 0, 0, 50, 249, 13, 96] : List Nat).length = 1 + 13 :=
  ⟨rfl, (emptyResponse_marshal .LittleEndian (bufferOf [255])
    ⟨[255, 1, 0, 1, 2, 2, 0, 0, 0, 0, 50, 249, 13, 96], fun _ _ => .ok, 1⟩ 513 readyOp
    (by decide) (by decide) rfl).1⟩

end Polar

namespace Polar

/-! ## Responses -/

/-- The header `errorResponse.Marshal` passes to `writeHeader`. -/
theorem errorHeader_inRange (S n : Nat) (hS : S < 65536) :
    (⟨messageVersion, 0, S, errorOp, n % 4294967296, 0⟩ : binaryHeader).inRange := by
  have := Nat.mod_lt n (show 0 < 4294967296 by decide)
  simp only [binaryHeader.inRange, messageVersion, errorOp]
  omega

/-- A successful `errorResponse.Marshal` made two `Write` calls, both accepted: the sink
holds the 13 wire bytes of the header and then the message. -/
theorem errorResponse_marshal_ok (order : ByteOrder) (w w' : BufferBackedWriter)
    (r : errorResponse) (hok : r.Marshal order w = .ret w' none) :
    w' = { w with
      buf := w.buf ++ wireHeader order
        ⟨messageVersion, 0, r.streamId, errorOp, r.message.length % 4294967296, 0⟩ ++ r.message,
      writes := w.writes + 2 } := by
  unfold errorResponse.Marshal at hok
  simp only [writeHeader_eq] at hok
  cases hr : w.respond w.buf (encodeFields order
      (binaryHeader.fields
        ⟨messageVersion, 0, r.streamId, errorOp, r.message.length % 4294967296, 0⟩)) with
  | fail n e => simp [hr] at hok
  | ok =>
    simp only [hr, BufferBackedWriter.Write] at hok
    split at hok
    · simp only [Outcome.ret.injEq, and_true] at hok
      exact hok.symm
    · simp at hok

/-- C5: for every stream id and every message of fewer than 2^32 bytes, a successful
`Marshal` of an `errorResponse` appends exactly 13 + n bytes to the sink: 13 bytes that
decode to a header with body length n (and version 1, flags 0, the stream id, opcode 3),
followed by exactly the n bytes of the message, with nothing after them. -/
theorem errorResponse_marshal (order : ByteOrder) (w w' : BufferBackedWriter)
    (S op : Nat) (message : List Nat) (hS : S < 65536) (hn : message.length < 4294967296)
    (hok : errorResponse.Marshal order { streamId := S, op := op, message := message } w =
      .ret w' none) :
    w'.buf.length = w.buf.length + (13 + message.length) ∧
    w'.buf.take w.buf.length = w.buf ∧
    decodeHeader order ((w'.buf.drop w.buf.length).take 13) =
      some { Version := 1, Flags := 0, StreamId := S, Op := 3, BodyLength := message.length,
             Crc := ChecksumIEEE ((w'.buf.drop w.buf.length).take 9) } ∧
    w'.buf.drop (w.buf.length + 13) = message := by
  have hw := errorResponse_marshal_ok order w w' _ hok
  simp only [Nat.mod_eq_of_lt hn] at hw
  subst hw
  have hr := errorHeader_inRange S message.length hS
  rw [Nat.mod_eq_of_lt hn] at hr
  have hl := wireHeader_length order ⟨messageVersion, 0, S, errorOp, message.length, 0⟩
  have d := decodeHeader_wireHeader order _ hr []
  have h9 : (wireHeader order ⟨messageVersion, 0, S, errorOp, message.length, 0⟩).take 9 =
      headerPrefix order ⟨messageVersion, 0, S, errorOp, message.length, 0⟩ := by
    rw [wireHeader_eq, List.take_left' (headerPrefix_length order _)]
  simp only [List.append_nil] at d
  refine ⟨by simp [hl], by simp [List.append_assoc], ?_, ?_⟩
  · simp only [List.append_assoc, List.drop_left, List.take_left' hl]
    rw [d, List.take_append_of_le_length (by omega), h9]
    rfl
  · rw [show w.buf.length + 13 = (w.buf ++ wireHeader order
        ⟨messageVersion, 0, S, errorOp, message.length, 0⟩).length by simp [hl],
      List.drop_left]

/-- C5 at the message "boom": a header with body length 4, then the bytes b, o, o, m. -/
theorem errorResponse_marshal_witness :
    errorResponse.Marshal .BigEndian ⟨7, 0, bytesOf "boom"⟩ (bufferOf []) =
        .ret ⟨[1, 0, 0, 7, 3, 0, 0, 0, 4, 172, 186, 142, 156, 98, 111, 111, 109], fun _ _ => .ok, 2⟩ none ∧
      decodeHeader .BigEndian ([1, 0, 0, 7, 3, 0, 0, 0, 4, 172, 186, 142, 156, 98, 111, 111, 109].take 13) =
        some ⟨1, 0, 7, 3, 4, ChecksumIEEE [1, 0, 0, 7, 3, 0, 0, 0, 4]⟩ ∧
      [1, 0, 0, 7, 3, 0, 0, 0, 4, 172, 186, 142, 156, 98, 111, 111, 109].drop 13 = [98, 111, 111, 109] :=
  ⟨rfl, (errorResponse_marshal .BigEndian (bufferOf [])
    ⟨[1, 0, 0, 7, 3, 0, 0, 0, 4, 172, 186, 142, 156, 98, 111, 111, 109], fun _ _ => .ok, 2⟩
    7 0 (bytesOf "boom") (by decide) (by decide) rfl).2.2⟩

end Polar

namespace Polar

/-- C6: for every message and every request header `R` (its stream id a uint16), a
successful `Marshal` of `newErrorResponse(message, R)` writes a header that decodes to
stream id `R.StreamId`, opcode 3 (error), version 1 and flags 0; the version, flags, opcode,
body length and crc of `R` play no part. -/
theorem newErrorResponse_header (order : ByteOrder) (w w' : BufferBackedWriter)
    (message : List Nat) (R : binaryHeader) (hS : R.StreamId < 65536)
    (hok : (newErrorResponse message R).Marshal order w = .ret w' none) :
    ∃ d, decodeHeader order (w'.buf.drop w.buf.length) = some d ∧
      d.StreamId = R.StreamId ∧ d.Op = errorOp ∧ errorOp = 3 ∧ d.Version = 1 ∧ d.Flags = 0 := by
  simp only [newErrorResponse, binaryResponse.Marshal] at hok
  have hw := errorResponse_marshal_ok order w w' _ hok
  subst hw
  have hr := errorHeader_inRange R.StreamId message.length hS
  have d := decodeHeader_wireHeader order _ hr message
  simp only [List.append_assoc, List.drop_left]
  exact ⟨_, d, rfl, rfl, rfl, rfl, rfl⟩

/-- C6 at a produce request on stream 258 whose other fields are all different from the
ones of the response. -/
theorem newErrorResponse_header_witness :
    (newErrorResponse (bytesOf "no") ⟨9, 1, 258, produceOp, 77, 12345⟩).Marshal
        .LittleEndian (bufferOf []) =
        .ret ⟨[1, 0, 2, 1, 3, 2, 0, 0, 0, 58, 112, 24, 64, 110, 111], fun _ _ => .ok, 2⟩ none ∧
      ∃ d, decodeHeader .LittleEndian
          ([1, 0, 2, 1, 3, 2, 0, 0, 0, 58, 112, 24, 64, 110, 111].drop 0) = some d ∧
        d.StreamId = 258 ∧ d.Op = errorOp ∧ errorOp = 3 ∧ d.Version = 1 ∧ d.Flags = 0 :=
  ⟨rfl, newErrorResponse_header .LittleEndian (bufferOf [])
    ⟨[1, 0, 2, 1, 3, 2, 0, 0, 0, 58, 112, 24, 64, 110, 111], fun _ _ => .ok, 2⟩
    (bytesOf "no") ⟨9, 1, 258, produceOp, 77, 12345⟩ (by decide) rfl⟩

/-- C7: the opcodes are startup = 1, ready = 2, error = 3, produce = 4 and
produceResponse = 5, no two of them equal; `withTimestamp` is 0x01, bit 0 alone;
`messageVersion` is 1; and every response, empty or error, writes version 1: the first byte
any successful `Marshal` appends is 1, and on a sink that never fails `Marshal` does return
nil, keeps what the sink held and appends bytes that start with 1. -/
theorem wire_constants (order : ByteOrder) (r : binaryResponse) :
    startupOp = 1 ∧ readyOp = 2 ∧ errorOp = 3 ∧ produceOp = 4 ∧ produceResponseOp = 5 ∧
    [startupOp, readyOp, errorOp, produceOp, produceResponseOp].Nodup ∧
    withTimestamp = 0x01 ∧ withTimestamp = 2 ^ 0 ∧
    messageVersion = 1 ∧
    (∀ w w' : BufferBackedWriter, r.Marshal order w = .ret w' none →
      (w'.buf.drop w.buf.length).head? = some 1) ∧
    (∀ P : List Nat, ∃ v, r.Marshal order (bufferOf P) = .ret v none ∧
      v.buf.take P.length = P ∧ (v.buf.drop P.length).head? = some 1) ∧
    (frame order r).head? = some 1 := by
  refine ⟨rfl, rfl, rfl, rfl, rfl, by decide, rfl, rfl, rfl, ?_, ?_, ?_⟩
  · intro w w' hok
    cases r with
    | empty r =>
      simp only [binaryResponse.Marshal, emptyResponse.Marshal] at hok
      obtain ⟨rfl, -⟩ := writeHeader_ok order w w' _ hok
      simp [wireHeader_eq, headerPrefix, messageVersion]
    | error r =>
      simp only [binaryResponse.Marshal] at hok
      have hw := errorResponse_marshal_ok order w w' _ hok
      subst hw
      simp [wireHeader_eq, headerPrefix, messageVersion]
  · intro P
    cases r with
    | empty r =>
      refine ⟨⟨P ++ wireHeader order ⟨messageVersion, 0, r.streamId, r.op, 0, 0⟩,
        fun _ _ => .ok, 1⟩, ?_, ?_, ?_⟩
      · simp [binaryResponse.Marshal, emptyResponse.Marshal, writeHeader_eq, bufferOf]
      · simp
      · simp [wireHeader_eq, headerPrefix, messageVersion]
    | error r =>
      refine ⟨⟨P ++ wireHeader order
        ⟨messageVersion, 0, r.streamId, errorOp, r.message.length % 4294967296, 0⟩ ++
          r.message, fun _ _ => .ok, 2⟩, ?_, ?_, ?_⟩
      · simp [binaryResponse.Marshal, errorResponse.Marshal, writeHeader_eq, bufferOf,
          BufferBackedWriter.Write]
      · simp [List.append_assoc]
      · simp [List.append_assoc, wireHeader_eq, headerPrefix, messageVersion]
  · cases r with
    | empty r =>
      simp [frame, binaryResponse.Marshal, emptyResponse.Marshal, writeHeader_eq, bufferOf,
        wireHeader_eq, headerPrefix, messageVersion]
    | error r =>
      simp [frame, binaryResponse.Marshal, errorResponse.Marshal, writeHeader_eq, bufferOf,
        BufferBackedWriter.Write, wireHeader_eq, headerPrefix, messageVersion]

/-- C7 at an error response and at an empty produce response, each written after three
bytes in the sink. -/
theorem wire_constants_witness :
    (binaryResponse.error ⟨7, 0, bytesOf "boom"⟩).Marshal .BigEndian (bufferOf [8, 8, 8]) =
        .ret ⟨[8, 8, 8, 1, 0, 0, 7, 3, 0, 0, 0, 4, 172, 186, 142, 156, 98, 111, 111, 109],
          fun _ _ => .ok, 2⟩ none ∧
      ([8, 8, 8, 1, 0, 0, 7, 3, 0, 0, 0, 4, 172, 186, 142, 156, 98, 111, 111, 109].drop
        3).head? = some 1 ∧
      (binaryResponse.empty ⟨1, produceResponseOp⟩).Marshal .BigEndian (bufferOf [8, 8, 8]) =
        .ret ⟨[8, 8, 8, 1, 0, 0, 1, 5, 0, 0, 0, 0, 242, 206, 92, 56], fun _ _ => .ok, 1⟩ none ∧
      ([8, 8, 8, 1, 0, 0, 1, 5, 0, 0, 0, 0, 242, 206, 92, 56].drop 3).head? = some 1 ∧
      frame .BigEndian (.error ⟨7, 0, bytesOf "boom"⟩) =
        [1, 0, 0, 7, 3, 0, 0, 0, 4, 172, 186, 142, 156, 98, 111, 111, 109] :=
  ⟨rfl,
    (wire_constants .BigEndian (.error ⟨7, 0, bytesOf "boom"⟩)).2.2.2.2.2.2.2.2.2.1
      (bufferOf [8, 8, 8])
      ⟨[8, 8, 8, 1, 0, 0, 7, 3, 0, 0, 0, 4, 172, 186, 142, 156, 98, 111, 111, 109],
        fun _ _ => .ok, 2⟩ rfl,
    rfl,
    (wire_constants .BigEndian (.empty ⟨1, produceResponseOp⟩)).2.2.2.2.2.2.2.2.2.1
      (bufferOf [8, 8, 8])
      ⟨[8, 8, 8, 1, 0, 0, 1, 5, 0, 0, 0, 0, 242, 206, 92, 56], fun _ _ => .ok, 1⟩ rfl,
    by decide⟩

/-! ## Segment chunks -/

/-- C8: for every start offset `s`, `NewEmptyChunk(s)` has `RecordLength()` 0, a
`DataBlock()` of length 0 (the shared empty buffer) and `StartOffset()` `s`; so for a chunk
from this constructor the length is 0 if and only if the buffer is empty. -/
theorem NewEmptyChunk_spec (s : Nat) :
    (NewEmptyChunk s).RecordLength = 0 ∧
    (NewEmptyChunk s).DataBlock.length = 0 ∧
    (NewEmptyChunk s).DataBlock = emptyBuffer ∧
    (NewEmptyChunk s).StartOffset = s ∧
    ((NewEmptyChunk s).length = 0 ↔ (NewEmptyChunk s).buffer = []) := by
  refine ⟨rfl, rfl, rfl, rfl, ?_⟩
  constructor <;> intro _ <;> rfl

end Polar

namespace Polar

theorem length_eq_eight {l : List Nat} (h : l.length = 8) :
    ∃ a b c d e f g i, l = [a, b, c, d, e, f, g, i] := by
  match l, h with
  | [a, b, c, d, e, f, g, i], _ => exact ⟨a, b, c, d, e, f, g, i, rfl⟩

/-- The unsigned image of an `int32` is below 2^32 and converts back to it. -/
theorem toInt32_image (c : Int) (h1 : -2147483648 ≤ c) (h2 : c < 2147483648) :
    (c % 4294967296).toNat < 4294967296 ∧ toInt32 (c % 4294967296).toNat = c := by
  unfold toInt32
  constructor
  · omega
  · split <;> omega

/-- C9: `chunkHeaderSize` is 21 and, for every chunk header in range and either byte order,
writing flags (1 byte), body length (4), start (8), record length (4) and crc (4, two's
complement) in declaration order gives exactly 21 bytes, from which reading the same layout
in the same byte order gives the header back, a negative crc included. -/
theorem chunkHeader_roundtrip (order : ByteOrder) (H : chunkHeader) (hr : H.inRange) :
    chunkHeaderSize = 21 ∧
    (encodeChunkHeader order H).length = 21 ∧
    decodeChunkHeader order (encodeChunkHeader order H) = some H := by
  obtain ⟨hf, hb, hs, hl, hc1, hc2⟩ := hr
  obtain ⟨hcl, hci⟩ := toInt32_image H.Crc hc1 hc2
  have himg : encodeChunkHeader order H =
      [H.Flags % 256] ++ order.Uint32Bytes H.BodyLength ++ order.Uint64Bytes H.Start ++
        order.Uint32Bytes H.RecordLength ++
        order.Uint32Bytes (H.Crc % 4294967296).toNat := by
    simp [encodeChunkHeader, encodeFields, chunkHeader.fields, Field.encode]
  have hlen : (encodeChunkHeader order H).length = 21 := by
    simp [himg, Uint32Bytes_length, Uint64Bytes_length]
  have hsize : chunkHeaderSize = 21 := by decide
  refine ⟨hsize, hlen, ?_⟩
  have vb := value_bytes order 4 H.BodyLength
  have vs := value_bytes order 8 H.Start
  have vl := value_bytes order 4 H.RecordLength
  have vc := value_bytes order 4 (H.Crc % 4294967296).toNat
  rw [Nat.mod_eq_of_lt (by norm_num; exact hb)] at vb
  rw [Nat.mod_eq_of_lt (by norm_num; exact hs)] at vs
  rw [Nat.mod_eq_of_lt (by norm_num; exact hl)] at vl
  rw [Nat.mod_eq_of_lt (by norm_num; exact hcl)] at vc
  rw [decodeChunkHeader, if_neg (by rw [hlen, hsize]; decide), himg]
  generalize (H.Crc % 4294967296).toNat = crc at vc hci ⊢
  obtain ⟨b0, b1, b2, b3, eb⟩ := length_eq_four (Uint32Bytes_length order H.BodyLength)
  obtain ⟨s0, s1, s2, s3, s4, s5, s6, s7, es⟩ :=
    length_eq_eight (Uint64Bytes_length order H.Start)
  obtain ⟨l0, l1, l2, l3, el⟩ := length_eq_four (Uint32Bytes_length order H.RecordLength)
  obtain ⟨c0, c1, c2, c3, ec⟩ := length_eq_four (Uint32Bytes_length order crc)
  simp only [ByteOrder.Uint32Bytes, ByteOrder.Uint64Bytes] at eb es el ec
  rw [eb] at vb
  rw [es] at vs
  rw [el] at vl
  rw [ec] at vc
  simp [ByteOrder.Uint32Bytes, ByteOrder.Uint64Bytes, eb, es, el, ec, ByteOrder.Uint32,
    ByteOrder.Uint64, vb, vs, vl, vc, hci, Nat.mod_eq_of_lt hf]

/-- C9 at a big-endian chunk header whose crc is negative. -/
theorem chunkHeader_roundtrip_witness :
    (⟨1, 2, 3, 4, -5⟩ : chunkHeader).inRange ∧
      encodeChunkHeader .BigEndian ⟨1, 2, 3, 4, -5⟩ =
        [1, 0, 0, 0, 2, 0, 0, 0, 0, 0, 0, 0, 3, 0, 0, 0, 4, 255, 255, 255, 251] ∧
      decodeChunkHeader .BigEndian (encodeChunkHeader .BigEndian ⟨1, 2, 3, 4, -5⟩) =
        some ⟨1, 2, 3, 4, -5⟩ :=
  ⟨by decide, by decide,
    (chunkHeader_roundtrip .BigEndian ⟨1, 2, 3, 4, -5⟩ (by decide)).2.2⟩

end Polar

namespace Polar

/-! ## Frames -/

theorem frame_empty (order : ByteOrder) (r : emptyResponse) :
    frame order (.empty r) = wireHeader order ⟨messageVersion, 0, r.streamId, r.op, 0, 0⟩ := by
  simp [frame, binaryResponse.Marshal, emptyResponse.Marshal, writeHeader_eq, bufferOf]

theorem frame_error (order : ByteOrder) (r : errorResponse) :
    frame order (.error r) =
      wireHeader order
        ⟨messageVersion, 0, r.streamId, errorOp, r.message.length % 4294967296, 0⟩ ++
        r.message := by
  simp [frame, binaryResponse.Marshal, errorResponse.Marshal, writeHeader_eq, bufferOf,
    BufferBackedWriter.Write]

/-- A successful `Marshal` appends the frame of the response to what the sink held. -/
theorem marshal_appends_frame (order : ByteOrder) (w w' : BufferBackedWriter)
    (r : binaryResponse) (hok : r.Marshal order w = .ret w' none) :
    w'.buf = w.buf ++ frame order r := by
  cases r with
  | empty r =>
    simp only [binaryResponse.Marshal, emptyResponse.Marshal] at hok
    obtain ⟨rfl, -⟩ := writeHeader_ok order w w' _ hok
    rw [frame_empty]
  | error r =>
    simp only [binaryResponse.Marshal] at hok
    have hw := errorResponse_marshal_ok order w w' _ hok
    subst hw
    rw [frame_error, List.append_assoc]

/-- C10: a successful `Marshal` of a response `r1` (empty or error) into a sink holding `P`
leaves the sink holding `P` followed by `frame r1`, the bytes `r1` gives in a fresh sink, so
they do not depend on `P`; marshaling `r2` next leaves `P`, `frame r1`, `frame r2`; and the
checksum patch of `writeHeader` keeps the length and every byte but the last 4 as the
`Write` of the header left them, so no byte of `P` changes. -/
theorem marshal_frame_effect (order : ByteOrder) (w w1 w2 : BufferBackedWriter)
    (r1 r2 : binaryResponse)
    (h1 : r1.Marshal order w = .ret w1 none) (h2 : r2.Marshal order w1 = .ret w2 none) :
    w1.buf = w.buf ++ frame order r1 ∧
    w2.buf = w.buf ++ frame order r1 ++ frame order r2 ∧
    w1.buf.take w.buf.length = w.buf ∧ w2.buf.take w.buf.length = w.buf ∧
    (∀ (header : binaryHeader) (wh : BufferBackedWriter),
      writeHeader order w header = .ret wh none →
        wh.buf.length = (binaryWrite w order header.fields).1.buf.length ∧
        wh.buf.length = w.buf.length + 13 ∧
        wh.buf.take (w.buf.length + 9) =
          (binaryWrite w order header.fields).1.buf.take (w.buf.length + 9)) := by
  have e1 := marshal_appends_frame order w w1 r1 h1
  have e2 := marshal_appends_frame order w1 w2 r2 h2
  rw [e1] at e2
  refine ⟨e1, e2, by simp [e1], by simp [e2, List.append_assoc], ?_⟩
  intro header wh hw
  obtain ⟨rfl, hr⟩ := writeHeader_ok order w wh header hw
  have hl := headerPrefix_length order header
  rw [encodeFields_header_split] at hr
  simp only [binaryWrite, BufferBackedWriter.Write, encodeFields_header_split, hr,
    wireHeader_eq]
  refine ⟨by simp [Uint32Bytes_length], by simp [hl, Uint32Bytes_length], ?_⟩
  rw [← List.append_assoc, ← List.append_assoc,
    List.take_left' (by simp [hl]), List.take_left' (by simp [hl])]

/-- C10 at an empty response followed by an error response, after two bytes in the sink. -/
theorem marshal_frame_effect_witness :
    frame .BigEndian (.empty ⟨7, readyOp⟩) = [1, 0, 0, 7, 2, 0, 0, 0, 0, 150, 183, 99, 53] ∧
      frame .BigEndian (.error ⟨7, 0, bytesOf "boom"⟩) =
        [1, 0, 0, 7, 3, 0, 0, 0, 4, 172, 186, 142, 156, 98, 111, 111, 109] ∧
      [9, 9, 1, 0, 0, 7, 2, 0, 0, 0, 0, 150, 183, 99, 53,
        1, 0, 0, 7, 3, 0, 0, 0, 4, 172, 186, 142, 156, 98, 111, 111, 109] =
        [9, 9] ++ frame .BigEndian (.empty ⟨7, readyOp⟩) ++
          frame .BigEndian (.error ⟨7, 0, bytesOf "boom"⟩) :=
  ⟨by decide, by decide,
    (marshal_frame_effect .BigEndian (bufferOf [9, 9])
      ⟨[9, 9, 1, 0, 0, 7, 2, 0, 0, 0, 0, 150, 183, 99, 53], fun _ _ => .ok, 1⟩
      ⟨[9, 9, 1, 0, 0, 7, 2, 0, 0, 0, 0, 150, 183, 99, 53,
        1, 0, 0, 7, 3, 0, 0, 0, 4, 172, 186, 142, 156, 98, 111, 111, 109], fun _ _ => .ok, 3⟩
      (.empty ⟨7, readyOp⟩) (.error ⟨7, 0, bytesOf "boom"⟩) rfl rfl).2.1⟩

end Polar

namespace Polar

/-! ## The crc field of the header passed in -/

/-- The wire bytes of a header do not depend on its `Crc` field. -/
theorem wireHeader_congr (order : ByteOrder) (A B : binaryHeader)
    (hv : A.Version = B.Version) (hf : A.Flags = B.Flags) (hs : A.StreamId = B.StreamId)
    (ho : A.Op = B.Op) (hb : A.BodyLength = B.BodyLength) :
    wireHeader order A = wireHeader order B := by
  have hp : headerPrefix order A = headerPrefix order B := by
    simp only [headerPrefix, hv, hf, hs, ho, hb]
  rw [wireHeader_eq, wireHeader_eq, hp]

/-- C11: the bytes `writeHeader` leaves in the sink do not depend on the `Crc` field of the
header passed in. For two headers that agree on version, flags, stream id, opcode and body
length, whatever their `Crc` fields, two successful `writeHeader` calls on the same sink
leave the same bytes, and the 13 bytes appended are the same even for different sinks. -/
theorem writeHeader_ignores_crc (order : ByteOrder) (w wa wb v vb : BufferBackedWriter)
    (A B : binaryHeader)
    (hv : A.Version = B.Version) (hf : A.Flags = B.Flags) (hs : A.StreamId = B.StreamId)
    (ho : A.Op = B.Op) (hb : A.BodyLength = B.BodyLength)
    (hA : writeHeader order w A = .ret wa none)
    (hB : writeHeader order w B = .ret wb none)
    (hB2 : writeHeader order v B = .ret vb none) :
    wa.buf = wb.buf ∧
    wa.buf.drop w.buf.length = vb.buf.drop v.buf.length ∧
    (wa.buf.drop w.buf.length).length = 13 := by
  obtain ⟨rfl, -⟩ := writeHeader_ok order w wa A hA
  obtain ⟨rfl, -⟩ := writeHeader_ok order w wb B hB
  obtain ⟨rfl, -⟩ := writeHeader_ok order v vb B hB2
  have hw := wireHeader_congr order A B hv hf hs ho hb
  simp only [List.drop_left, hw]
  exact ⟨trivial, trivial, wireHeader_length order B⟩

/-- C11 at two headers with `Crc` 0 and 4294967295. -/
theorem writeHeader_ignores_crc_witness :
    writeHeader .BigEndian (bufferOf [9, 9]) ⟨1, 0, 7, 2, 0, 0⟩ =
        .ret ⟨[9, 9, 1, 0, 0, 7, 2, 0, 0, 0, 0, 150, 183, 99, 53], fun _ _ => .ok, 1⟩ none ∧
      writeHeader .BigEndian (bufferOf [9, 9]) ⟨1, 0, 7, 2, 0, 4294967295⟩ =
        .ret ⟨[9, 9, 1, 0, 0, 7, 2, 0, 0, 0, 0, 150, 183, 99, 53], fun _ _ => .ok, 1⟩ none ∧
      [9, 9, 1, 0, 0, 7, 2, 0, 0, 0, 0, 150, 183, 99, 53].drop 2 =
        [1, 0, 0, 7, 2, 0, 0, 0, 0, 150, 183, 99, 53].drop 0 :=
  ⟨rfl, rfl, (writeHeader_ignores_crc .BigEndian (bufferOf [9, 9])
    ⟨[9, 9, 1, 0, 0, 7, 2, 0, 0, 0, 0, 150, 183, 99, 53], fun _ _ => .ok, 1⟩
    ⟨[9, 9, 1, 0, 0, 7, 2, 0, 0, 0, 0, 150, 183, 99, 53], fun _ _ => .ok, 1⟩
    (bufferOf [])
    ⟨[1, 0, 0, 7, 2, 0, 0, 0, 0, 150, 183, 99, 53], fun _ _ => .ok, 1⟩
    ⟨1, 0, 7, 2, 0, 0⟩ ⟨1, 0, 7, 2, 0, 4294967295⟩ rfl rfl rfl rfl rfl rfl rfl rfl).2.1⟩

end Polar

namespace Polar

/-! ## Failures of the sink -/

/-- C13: `errorResponse.Marshal` propagates the failures of the sink in order. When the sink
fails the `Write` of the header, or `writeHeader` returns an error in any way, `Marshal`
returns that error with the sink as the failed call left it, after one `Write` call: the
body is not written. When `writeHeader` returns nil, `Marshal` returns what the `Write` of
the message returns, nil when the sink accepts it, after two `Write` calls.
`emptyResponse.Marshal` returns what `writeHeader` returns. -/
theorem marshal_error_propagation (order : ByteOrder) (w : BufferBackedWriter)
    (r : errorResponse) (e : emptyResponse) :
    (∀ n err, w.respond w.buf (encodeFields order (binaryHeader.fields
        ⟨messageVersion, 0, r.streamId, errorOp, r.message.length % 4294967296, 0⟩)) =
          .fail n err →
      ∃ w1, r.Marshal order w = .ret w1 (some err) ∧ w1.writes = w.writes + 1) ∧
    (∀ w1 err, writeHeader order w
        ⟨messageVersion, 0, r.streamId, errorOp, r.message.length % 4294967296, 0⟩ =
          .ret w1 (some err) →
      r.Marshal order w = .ret w1 (some err) ∧ w1.writes = w.writes + 1) ∧
    (∀ w1, writeHeader order w
        ⟨messageVersion, 0, r.streamId, errorOp, r.message.length % 4294967296, 0⟩ =
          .ret w1 none →
      r.Marshal order w = .ret (w1.Write r.message).1 (w1.Write r.message).2 ∧
      (w1.Write r.message).1.writes = w.writes + 2 ∧
      (w1.respond w1.buf r.message = .ok → (w1.Write r.message).2 = none) ∧
      (∀ n err, w1.respond w1.buf r.message = .fail n err →
        (w1.Write r.message).2 = some err)) ∧
    e.Marshal order w = writeHeader order w ⟨messageVersion, 0, e.streamId, e.op, 0, 0⟩ := by
  refine ⟨?_, ?_, ?_, rfl⟩
  · intro n err hr
    simp only [errorResponse.Marshal, writeHeader_eq, hr]
    exact ⟨_, rfl, rfl⟩
  · intro w1 err hw
    constructor
    · simp only [errorResponse.Marshal, hw]
    · rw [writeHeader_eq] at hw
      split at hw
      · simp at hw
      · simp only [Outcome.ret.injEq] at hw
        rw [← hw.1]
  · intro w1 hw
    obtain ⟨rfl, -⟩ := writeHeader_ok order w w1 _ hw
    refine ⟨?_, ?_, ?_, ?_⟩
    · simp only [errorResponse.Marshal, hw]
    · simp only [BufferBackedWriter.Write]
      split <;> rfl
    · intro hr
      dsimp only at hr
      simp only [BufferBackedWriter.Write, hr]
    · intro n err hr
      dsimp only at hr
      simp only [BufferBackedWriter.Write, hr]

/-- C13 at a sink with room for 10 more bytes, which fails the `Write` of the header, and
at one with room for 14, which takes the header and fails the `Write` of the body. -/
theorem marshal_error_propagation_witness :
    (∃ w1, errorResponse.Marshal .LittleEndian ⟨7, 2, bytesOf "boom"⟩ (boundedBufferOf [9, 9] 10) =
        .ret w1 (some "short write") ∧ w1.writes = 1) ∧
      (∃ w2, errorResponse.Marshal .LittleEndian ⟨7, 2, bytesOf "boom"⟩
          (boundedBufferOf [9, 9] 14) = .ret w2 (some "short write") ∧ w2.writes = 2) :=
  ⟨(marshal_error_propagation .LittleEndian (boundedBufferOf [9, 9] 10)
      ⟨7, 2, bytesOf "boom"⟩ ⟨7, 2⟩).1 10 "short write" rfl,
    ⟨_, ((marshal_error_propagation .LittleEndian (boundedBufferOf [9, 9] 14)
      ⟨7, 2, bytesOf "boom"⟩ ⟨7, 2⟩).2.2.1
        ⟨[9, 9, 1, 0, 7, 0, 3, 4, 0, 0, 0, 228, 211, 23, 252],
          (boundedBufferOf [9, 9] 14).respond, 1⟩ rfl).1, rfl⟩⟩

end Polar

namespace Polar

/-! ## Slice bounds -/

/-- C14: `writeHeader` never panics, on any sink, the empty one included. When the `Write`
of the header was accepted, the buffer holds at least `binaryHeaderSize` = 13 bytes, the
window `buf[len-13:]` has length 13, the checksum input is its first 9 bytes, the patched
region is its last 4 bytes, and `writeHeader` returns nil leaving a buffer of the same
length. -/
theorem writeHeader_in_bounds (order : ByteOrder) (w : BufferBackedWriter)
    (header : binaryHeader) :
    writeHeader order w header ≠ .panic ∧
    writeHeader order { w with buf := [] } header ≠ .panic ∧
    (∀ w1, binaryWrite w order header.fields = (w1, none) →
      binaryHeaderSize ≤ w1.Bytes.length ∧
      (w1.Bytes.drop (w1.Bytes.length - binaryHeaderSize)).length = 13 ∧
      crcByteSize ≤ (w1.Bytes.drop (w1.Bytes.length - binaryHeaderSize)).length ∧
      ((w1.Bytes.drop (w1.Bytes.length - binaryHeaderSize)).take
        ((w1.Bytes.drop (w1.Bytes.length - binaryHeaderSize)).length - crcByteSize)).length
          = 9 ∧
      ((w1.Bytes.drop (w1.Bytes.length - binaryHeaderSize)).drop
        ((w1.Bytes.drop (w1.Bytes.length - binaryHeaderSize)).length - crcByteSize)).length
          = 4 ∧
      ∃ w', writeHeader order w header = .ret w' none ∧
        w'.buf.length = w1.Bytes.length) := by
  have hnp : ∀ v : BufferBackedWriter, writeHeader order v header ≠ .panic := by
    intro v
    rw [writeHeader_eq]
    split <;> simp
  refine ⟨hnp w, hnp _, ?_⟩
  intro w1 hw
  have hl := encodeFields_header_length order header
  simp only [binaryWrite, BufferBackedWriter.Write] at hw
  cases hr : w.respond w.buf (encodeFields order header.fields) with
  | fail n e => simp [hr] at hw
  | ok =>
    simp only [hr, Prod.mk.injEq, and_true] at hw
    subst hw
    have hlen : (w.buf ++ encodeFields order header.fields).length = w.buf.length + 13 := by
      simp [hl]
    simp only [BufferBackedWriter.Bytes, binaryHeaderSize_eq, crcByteSize, hlen,
      Nat.add_sub_cancel, List.drop_left, hl, List.length_take, List.length_drop]
    refine ⟨by omega, trivial, by omega, by decide, trivial,
      ⟨{ w with buf := w.buf ++ wireHeader order header, writes := w.writes + 1 }, ?_, ?_⟩⟩
    · rw [writeHeader_eq, hr]
    · simp [wireHeader_length]

/-- C14 at the empty sink. -/
theorem writeHeader_in_bounds_witness :
    writeHeader .BigEndian (bufferOf []) ⟨1, 0, 7, 2, 0, 0⟩ =
        .ret ⟨[1, 0, 0, 7, 2, 0, 0, 0, 0, 150, 183, 99, 53], fun _ _ => .ok, 1⟩ none ∧
      binaryHeaderSize ≤ ([1, 0, 0, 7, 2, 0, 0, 0, 0, 0, 0, 0, 0] : List Nat).length :=
  ⟨rfl, ((writeHeader_in_bounds .BigEndian (bufferOf []) ⟨1, 0, 7, 2, 0, 0⟩).2.2
    ⟨[1, 0, 0, 7, 2, 0, 0, 0, 0, 0, 0, 0, 0], fun _ _ => .ok, 1⟩ rfl).1⟩

/-! ## The body length field -/

/-- C15: for a message of `n` bytes (and a uint16 stream id), the header a successful
`errorResponse.Marshal` writes decodes to body length `n mod 2^32`, while the body written
after the 13 header bytes is the whole message, `n` bytes; so the body length of the header
is the length of the body if and only if `n < 2^32`. -/
theorem errorResponse_bodyLength (order : ByteOrder) (w w' : BufferBackedWriter)
    (S op : Nat) (message : List Nat) (hS : S < 65536)
    (hok : errorResponse.Marshal order { streamId := S, op := op, message := message } w =
      .ret w' none) :
    ∃ d, decodeHeader order ((w'.buf.drop w.buf.length).take 13) = some d ∧
      d.BodyLength = message.length % 4294967296 ∧
      w'.buf.drop (w.buf.length + 13) = message ∧
      (w'.buf.drop (w.buf.length + 13)).length = message.length ∧
      (d.BodyLength = (w'.buf.drop (w.buf.length + 13)).length ↔
        message.length < 4294967296) := by
  have hw := errorResponse_marshal_ok order w w' _ hok
  dsimp only at hw
  subst hw
  have hr := errorHeader_inRange S message.length hS
  have hl := wireHeader_length order
    ⟨messageVersion, 0, S, errorOp, message.length % 4294967296, 0⟩
  have d := decodeHeader_wireHeader order _ hr []
  simp only [List.append_nil] at d
  have hbody : (w.buf ++ wireHeader order
      ⟨messageVersion, 0, S, errorOp, message.length % 4294967296, 0⟩ ++ message).drop
        (w.buf.length + 13) = message := by
    rw [show w.buf.length + 13 = (w.buf ++ wireHeader order
        ⟨messageVersion, 0, S, errorOp, message.length % 4294967296, 0⟩).length by simp [hl],
      List.drop_left]
  have d13 : decodeHeader order (((w.buf ++ wireHeader order
      ⟨messageVersion, 0, S, errorOp, message.length % 4294967296, 0⟩ ++ message).drop
        w.buf.length).take 13) =
      some ⟨messageVersion, 0, S, errorOp, message.length % 4294967296,
        ChecksumIEEE (headerPrefix order
          ⟨messageVersion, 0, S, errorOp, message.length % 4294967296, 0⟩)⟩ := by
    simp only [List.append_assoc, List.drop_left, List.take_left' hl]
    exact d
  refine ⟨_, d13, rfl, hbody, by rw [hbody], ?_⟩
  · rw [hbody]
    constructor
    · intro h
      have := Nat.mod_lt message.length (show 0 < 4294967296 by decide)
      dsimp only at h
      omega
    · intro h
      exact Nat.mod_eq_of_lt h

/-- C15 at the message "boom". -/
theorem errorResponse_bodyLength_witness :
    ∃ d, decodeHeader .BigEndian (([1, 0, 0, 7, 3, 0, 0, 0, 4, 172, 186, 142, 156,
          98, 111, 111, 109].drop 0).take 13) = some d ∧
      d.BodyLength = (bytesOf "boom").length % 4294967296 ∧
      [1, 0, 0, 7, 3, 0, 0, 0, 4, 172, 186, 142, 156, 98, 111, 111, 109].drop (0 + 13) =
        bytesOf "boom" ∧
      ([1, 0, 0, 7, 3, 0, 0, 0, 4, 172, 186, 142, 156, 98, 111, 111, 109].drop
        (0 + 13)).length = (bytesOf "boom").length ∧
      (d.BodyLength = ([1, 0, 0, 7, 3, 0, 0, 0, 4, 172, 186, 142, 156, 98, 111, 111, 109].drop
        (0 + 13)).length ↔ (bytesOf "boom").length < 4294967296) :=
  errorResponse_bodyLength .BigEndian (bufferOf [])
    ⟨[1, 0, 0, 7, 3, 0, 0, 0, 4, 172, 186, 142, 156, 98, 111, 111, 109], fun _ _ => .ok, 2⟩
    7 0 (bytesOf "boom") (by decide) rfl

end Polar

namespace Polar

/-! ## The checksum as a linear map -/

theorem crcShift_eq (poly crc : Nat) :
    crcShift poly crc = if crc % 2 = 1 then crc / 2 ^^^ poly else crc / 2 := by
  simp [crcShift, Nat.shiftRight_eq_div_pow]

/-- A shift step distributes over xor. -/
theorem crcShift_xor (poly a b : Nat) :
    crcShift poly (a ^^^ b) = crcShift poly a ^^^ crcShift poly b := by
  simp only [crcShift_eq, Nat.xor_div_two, Nat.xor_mod_two_eq]
  have ha : a % 2 = 0 ∨ a % 2 = 1 := by omega
  have hb : b % 2 = 0 ∨ b % 2 = 1 := by omega
  rcases ha with ha | ha <;> rcases hb with hb | hb
  · have h : (a + b) % 2 = 0 := by omega
    simp [ha, hb, h]
  · have h : (a + b) % 2 = 1 := by omega
    simp only [ha, hb, h, if_true, if_false, zero_ne_one]
    ac_rfl
  · have h : (a + b) % 2 = 1 := by omega
    simp only [ha, hb, h, if_true, if_false, zero_ne_one]
    ac_rfl
  · have h : (a + b) % 2 = 0 := by omega
    simp only [ha, hb, h, if_true, if_false, zero_ne_one]
    have e : (a / 2 ^^^ poly) ^^^ (b / 2 ^^^ poly) = (a / 2 ^^^ b / 2) ^^^ (poly ^^^ poly) := by
      ac_rfl
    rw [e, Nat.xor_self, Nat.xor_zero]

/-- The table entry, eight shift steps, distributes over xor. -/
theorem tableEntry_xor (poly a b : Nat) :
    tableEntry poly (a ^^^ b) = tableEntry poly a ^^^ tableEntry poly b := by
  simp only [tableEntry, crcShift_xor]

theorem crcShift_double (poly m : Nat) : crcShift poly (2 * m) = m := by
  rw [crcShift_eq]
  have h : (2 * m) % 2 ≠ 1 := by omega
  rw [if_neg h]
  omega

/-- Eight shift steps bring a value with a zero low byte down by that byte. -/
theorem tableEntry_shiftLeft (poly m : Nat) : tableEntry poly (m <<< 8) = m := by
  simp only [tableEntry, Nat.shiftLeft_succ, crcShift_double, Nat.shiftLeft_zero]

/-- A value is its low byte xor the rest. -/
theorem split_low_byte (c : Nat) : c = (c % 256) ^^^ ((c >>> 8) <<< 8) := by
  apply Nat.eq_of_testBit_eq
  intro i
  rw [show (256 : Nat) = 2 ^ 8 from rfl]
  simp only [Nat.testBit_xor, Nat.testBit_mod_two_pow, Nat.testBit_shiftLeft,
    Nat.testBit_shiftRight]
  by_cases h : i < 8
  · have h2 : ¬ i ≥ 8 := by omega
    simp [h, h2]
  · have h2 : i ≥ 8 := by omega
    simp [h, h2, Nat.add_sub_cancel' h2]

/-- The table-driven step is the bitwise one: xor the byte in, then eight shift steps. -/
theorem crcStep_eq (poly crc v : Nat) : crcStep poly crc v = tableEntry poly (crc ^^^ v) := by
  have e : crc ^^^ v = ((crc % 256) ^^^ v) ^^^ ((crc >>> 8) <<< 8) := by
    conv_lhs => rw [split_low_byte crc]
    ac_rfl
  rw [e, tableEntry_xor, tableEntry_shiftLeft, crcStep]

/-- A shift step with the IEEE polynomial loses nothing of a 32-bit value. -/
theorem crcShift_inj (a b : Nat) (ha : a < 2 ^ 32) (hb : b < 2 ^ 32)
    (h : crcShift IEEE a = crcShift IEEE b) : a = b := by
  have top : ∀ x, x < 2 ^ 32 → 2 ^ 31 ≤ x / 2 ^^^ IEEE := by
    intro x hx
    apply Nat.testBit_implies_ge
    rw [Nat.testBit_xor, Nat.testBit_lt_two_pow (show x / 2 < 2 ^ 31 by omega)]
    decide
  have hta := top a ha
  have htb := top b hb
  rw [crcShift_eq, crcShift_eq] at h
  split at h <;> split at h
  · have := Nat.xor_left_inj.mp h
    omega
  · omega
  · omega
  · omega

theorem tableEntry_inj (a b : Nat) (ha : a < 2 ^ 32) (hb : b < 2 ^ 32)
    (h : tableEntry IEEE a = tableEntry IEEE b) : a = b := by
  unfold tableEntry at h
  have l1 := crcShift_lt _ ha
  have m1 := crcShift_lt _ hb
  have l2 := crcShift_lt _ l1
  have m2 := crcShift_lt _ m1
  have l3 := crcShift_lt _ l2
  have m3 := crcShift_lt _ m2
  have l4 := crcShift_lt _ l3
  have m4 := crcShift_lt _ m3
  have l5 := crcShift_lt _ l4
  have m5 := crcShift_lt _ m4
  have l6 := crcShift_lt _ l5
  have m6 := crcShift_lt _ m5
  have l7 := crcShift_lt _ l6
  have m7 := crcShift_lt _ m6
  exact crcShift_inj _ _ ha hb (crcShift_inj _ _ l1 m1 (crcShift_inj _ _ l2 m2
    (crcShift_inj _ _ l3 m3 (crcShift_inj _ _ l4 m4 (crcShift_inj _ _ l5 m5
      (crcShift_inj _ _ l6 m6 (crcShift_inj _ _ l7 m7 h)))))))

/-- Two different bytes take a state to two different states. -/
theorem crcStep_inj_byte (crc v v' : Nat) (hc : crc < 2 ^ 32) (hv : v < 256) (hv' : v' < 256)
    (h : crcStep IEEE crc v = crcStep IEEE crc v') : v = v' := by
  rw [crcStep_eq, crcStep_eq] at h
  have h1 : crc ^^^ v < 2 ^ 32 := Nat.xor_lt_two_pow hc (by omega)
  have h2 : crc ^^^ v' < 2 ^ 32 := Nat.xor_lt_two_pow hc (by omega)
  exact Nat.xor_right_inj.mp (tableEntry_inj _ _ h1 h2 h)

/-- A byte takes two different states to two different states. -/
theorem crcStep_inj_state (c c' v : Nat) (hc : c < 2 ^ 32) (hc' : c' < 2 ^ 32) (hv : v < 256)
    (h : crcStep IEEE c v = crcStep IEEE c' v) : c = c' := by
  rw [crcStep_eq, crcStep_eq] at h
  have h1 : c ^^^ v < 2 ^ 32 := Nat.xor_lt_two_pow hc (by omega)
  have h2 : c' ^^^ v < 2 ^ 32 := Nat.xor_lt_two_pow hc' (by omega)
  exact Nat.xor_left_inj.mp (tableEntry_inj _ _ h1 h2 h)

theorem foldl_crcStep_inj (data : List Nat) (c c' : Nat) (hc : c < 2 ^ 32) (hc' : c' < 2 ^ 32)
    (hd : ∀ b ∈ data, b < 256)
    (h : data.foldl (crcStep IEEE) c = data.foldl (crcStep IEEE) c') : c = c' := by
  induction data generalizing c c' with
  | nil => simpa using h
  | cons b bs ih =>
    have hb : b < 256 := hd b (by simp)
    simp only [List.foldl_cons] at h
    have := ih _ _ (crcStep_lt c b hc hb) (crcStep_lt c' b hc' hb)
      (fun x hx => hd x (by simp [hx])) h
    exact crcStep_inj_state c c' b hc hc' hb this

/-- Two byte sequences that differ in exactly one byte have different checksums. -/
theorem ChecksumIEEE_single_byte (pre post : List Nat) (b b' : Nat)
    (hpre : ∀ x ∈ pre, x < 256) (hpost : ∀ x ∈ post, x < 256)
    (hb : b < 256) (hb' : b' < 256) (hne : b ≠ b') :
    ChecksumIEEE (pre ++ b :: post) ≠ ChecksumIEEE (pre ++ b' :: post) := by
  intro h
  simp only [ChecksumIEEE, crcUpdate, List.foldl_append, List.foldl_cons] at h
  have h0 : pre.foldl (crcStep IEEE) (0 ^^^ 0xffffffff) < 2 ^ 32 :=
    foldl_crcStep_lt pre _ (by decide) hpre
  have h1 := Nat.xor_left_inj.mp h
  have h2 := foldl_crcStep_inj post _ _ (crcStep_lt _ b h0 hb) (crcStep_lt _ b' h0 hb') hpost h1
  exact hne (crcStep_inj_byte _ b b' h0 hb hb' h2)

end Polar

namespace Polar

/-! ## Corruption of a wire header -/

theorem leBytes_leValue (bs : List Nat) (h : ∀ x ∈ bs, x < 256) :
    leBytes bs.length (leValue bs) = bs := by
  induction bs with
  | nil => rfl
  | cons b bs ih =>
    have hb : b < 256 := h b (by simp)
    have e1 : (b + 256 * leValue bs) % 256 = b := by omega
    have e2 : (b + 256 * leValue bs) / 256 = leValue bs := by omega
    simp only [List.length_cons, leValue, leBytes, e1, e2]
    rw [ih (fun x hx => h x (by simp [hx]))]

/-- Writing the value read from a sequence of bytes gives the sequence back. -/
theorem bytes_value (order : ByteOrder) (bs : List Nat) (h : ∀ x ∈ bs, x < 256) :
    order.bytes bs.length (order.value bs) = bs := by
  cases order
  · exact leBytes_leValue bs h
  · have := leBytes_leValue bs.reverse (fun x hx => h x (by simpa using hx))
    simp only [List.length_reverse] at this
    simp [ByteOrder.bytes, ByteOrder.value, this]

/-- A 9-byte sequence followed by its checksum no longer validates once one of the 13 bytes
is replaced by a different byte. -/
theorem checksum_detects (order : ByteOrder) (P : List Nat) (hP : P.length = 9)
    (hPlt : ∀ x ∈ P, x < 256) (i b : Nat) (hi : i < 13) (hb : b < 256)
    (hne : (P ++ order.Uint32Bytes (ChecksumIEEE P)).getD i 0 ≠ b) :
    order.Uint32 (((P ++ order.Uint32Bytes (ChecksumIEEE P)).set i b).drop 9) ≠
      ChecksumIEEE (((P ++ order.Uint32Bytes (ChecksumIEEE P)).set i b).take 9) := by
  have hcrc := ChecksumIEEE_lt P hPlt
  have hC := Uint32Bytes_length order (ChecksumIEEE P)
  by_cases h9 : i < 9
  · have hi' : i < P.length := by omega
    have hset : (P.set i b).length = 9 := by simp [hP]
    rw [List.set_append_left i b hi', List.take_left' hset, List.drop_left' hset]
    have hval := Uint32_Uint32Bytes order (ChecksumIEEE P) [] hcrc
    rw [List.append_nil] at hval
    rw [hval, List.getD_append P _ 0 i hi', List.getD_eq_getElem P 0 hi'] at *
    have hsplit : P = P.take i ++ P[i] :: P.drop (i + 1) := by
      rw [← List.drop_eq_getElem_cons hi', List.take_append_drop]
    rw [List.set_eq_take_cons_drop b hi']
    conv_lhs => rw [hsplit]
    exact ChecksumIEEE_single_byte (P.take i) (P.drop (i + 1)) P[i] b
      (fun x hx => hPlt x (List.mem_of_mem_take hx))
      (fun x hx => hPlt x (List.mem_of_mem_drop hx))
      (hPlt _ (List.getElem_mem hi')) hb hne
  · have hle : P.length ≤ i := by omega
    rw [List.set_append_right i b hle, List.take_left' hP, List.drop_left' hP]
    rw [List.getD_append_right P _ 0 i hle] at hne
    intro heq
    have hXlen : ((order.Uint32Bytes (ChecksumIEEE P)).set (i - P.length) b).length = 4 := by
      simp [hC]
    have hXlt : ∀ x ∈ (order.Uint32Bytes (ChecksumIEEE P)).set (i - P.length) b, x < 256 := by
      intro x hx
      rcases List.mem_or_eq_of_mem_set hx with hx | rfl
      · exact bytes_lt order 4 _ x hx
      · exact hb
    have hX := bytes_value order _ hXlt
    rw [hXlen] at hX
    rw [ByteOrder.Uint32, List.take_of_length_le (by omega)] at heq
    rw [heq] at hX
    have hj : i - P.length < (order.Uint32Bytes (ChecksumIEEE P)).length := by omega
    have hget := congrArg (fun l => l.getD (i - P.length) 0) hX
    simp only [ByteOrder.Uint32Bytes] at hget hne hj
    rw [List.getD_eq_getElem?_getD, List.getD_eq_getElem?_getD,
      List.getElem?_set_self hj] at hget
    rw [List.getD_eq_getElem?_getD] at hne
    exact hne hget

theorem wireHeader_lt (order : ByteOrder) (h : binaryHeader) :
    ∀ b ∈ wireHeader order h, b < 256 := by
  intro b hb
  rw [wireHeader_eq, List.mem_append] at hb
  rcases hb with hb | hb
  · exact headerPrefix_lt order h b hb
  · exact bytes_lt order 4 _ b hb

end Polar

namespace Polar

/-- C12: the 13 bytes a successful `writeHeader` appends validate, the crc field read from
bytes 9-12 being the CRC-32 (IEEE) of bytes 0-8; once any one of the 13 bytes is replaced by
a different byte value, the crc field read from bytes 9-12 is no longer the CRC-32 of bytes
0-8; in particular this holds when one bit of one byte is flipped. -/
theorem writeHeader_detects_corruption (order : ByteOrder) (w w' : BufferBackedWriter)
    (W : binaryHeader) (i b : Nat) (hok : writeHeader order w W = .ret w' none)
    (hi : i < 13) (hb : b < 256) (hne : (w'.buf.drop w.buf.length).getD i 0 ≠ b) :
    order.Uint32 ((w'.buf.drop w.buf.length).drop 9) =
      ChecksumIEEE ((w'.buf.drop w.buf.length).take 9) ∧
    order.Uint32 (((w'.buf.drop w.buf.length).set i b).drop 9) ≠
      ChecksumIEEE (((w'.buf.drop w.buf.length).set i b).take 9) ∧
    (∀ k, k < 8 →
      order.Uint32 (((w'.buf.drop w.buf.length).set i
          ((w'.buf.drop w.buf.length).getD i 0 ^^^ 2 ^ k)).drop 9) ≠
        ChecksumIEEE (((w'.buf.drop w.buf.length).set i
          ((w'.buf.drop w.buf.length).getD i 0 ^^^ 2 ^ k)).take 9)) := by
  obtain ⟨rfl, -⟩ := writeHeader_ok order w w' W hok
  have hP := headerPrefix_length order W
  have hPlt := headerPrefix_lt order W
  have hlen := wireHeader_length order W
  have hlt := wireHeader_lt order W
  simp only [List.drop_left] at hne ⊢
  rw [wireHeader_eq] at hne hlen hlt ⊢
  refine ⟨?_, checksum_detects order _ hP hPlt i b hi hb hne, ?_⟩
  · rw [List.drop_left' hP, List.take_left' hP]
    have := Uint32_Uint32Bytes order _ [] (ChecksumIEEE_lt _ hPlt)
    rwa [List.append_nil] at this
  · intro k hk
    have hi' : i < (headerPrefix order W ++
        order.Uint32Bytes (ChecksumIEEE (headerPrefix order W))).length := by omega
    have hold : (headerPrefix order W ++
        order.Uint32Bytes (ChecksumIEEE (headerPrefix order W))).getD i 0 < 256 := by
      rw [List.getD_eq_getElem _ 0 hi']
      exact hlt _ (List.getElem_mem hi')
    apply checksum_detects order _ hP hPlt i _ hi
    · exact Nat.xor_lt_two_pow (n := 8) hold (Nat.pow_lt_pow_right (by decide) hk)
    · intro h
      have h0 : (headerPrefix order W ++
          order.Uint32Bytes (ChecksumIEEE (headerPrefix order W))).getD i 0 ^^^ 0 =
          (headerPrefix order W ++
          order.Uint32Bytes (ChecksumIEEE (headerPrefix order W))).getD i 0 ^^^ 2 ^ k := by
        rw [Nat.xor_zero]
        exact h
      have := Nat.xor_right_inj.mp h0
      have hpos : 0 < 2 ^ k := Nat.pow_pos (by decide)
      omega

/-- C12 at a big-endian header whose stream id byte 7 becomes 8, once by replacing the byte
and once more, with 7 xor 2^3 = 15, by flipping a bit. -/
theorem writeHeader_detects_corruption_witness :
    writeHeader .BigEndian (bufferOf []) ⟨1, 0, 7, 2, 0, 0⟩ =
        .ret ⟨[1, 0, 0, 7, 2, 0, 0, 0, 0, 150, 183, 99, 53], fun _ _ => .ok, 1⟩ none ∧
      ByteOrder.BigEndian.Uint32 [150, 183, 99, 53] ≠
        ChecksumIEEE [1, 0, 0, 8, 2, 0, 0, 0, 0] ∧
      ByteOrder.BigEndian.Uint32 [150, 183, 99, 53] ≠
        ChecksumIEEE [1, 0, 0, 15, 2, 0, 0, 0, 0] :=
  have h := writeHeader_detects_corruption .BigEndian (bufferOf [])
    ⟨[1, 0, 0, 7, 2, 0, 0, 0, 0, 150, 183, 99, 53], fun _ _ => .ok, 1⟩
    ⟨1, 0, 7, 2, 0, 0⟩ 3 8 rfl (by decide) (by decide) (by decide)
  ⟨rfl, h.2.1, h.2.2 3 (by decide)⟩

end Polar
